import Mathlib

/-!
# FAST & FAIR B+-tree (DICL/FAST_FAIR): shallow embedding and verification

This file embeds the volatile concurrent variant (`concurrent/src/btree.h`) of
the FAST & FAIR B+-tree in Lean 4 and proves/refutes the spec claims about it.

Modelling conventions:
* `entry_key_t = int64_t` is modelled as `Int` (no arithmetic is ever performed
  on keys by the code, only comparisons, so no wrap-around modelling is needed;
  `LONG_MAX` is the concrete constant `2^63 - 1`).
* Pointers (`char*`, `page*`) are modelled as `Nat`, with `0` playing the role
  of `NULL`.  Heap pages live in a `List Page`; the page with id `pid ≥ 1` is
  stored at list index `pid - 1`.  Value handles stored in leaves are plain
  nonzero `Nat`s.
* `uint8_t switch_counter` is a `Nat` kept below `256`; every increment in the
  source is modelled with an explicit `% 256` (unsigned overflow wraps).
* `int16_t last_index` is modelled as `Int` (it legitimately holds `-1`).
* The code is embedded sequentially (single writer, no interference), which is
  the setting of all the claims ("no concurrent operations", "quiescent").
  Consequently:
  - lock/unlock calls are no-ops and are dropped;
  - a `do { ... } while (switch_counter != previous_switch_counter)` retry loop
    runs its body exactly once, because nothing concurrently changes the
    counter; the embedding is the body run once;
  - a re-read of a memory location (`if (k == records[i].key)` after
    `k = records[i].key`) is the identity and is folded away.
* Unbounded `while`/recursion is modelled with an explicit fuel parameter;
  running out of fuel is observable (`Option`/default results), and no theorem
  concludes anything from fuel exhaustion except where non-termination itself
  is being demonstrated.
* Cache-line flushes (`clflush`) do not change volatile state; where a claim is
  about persist ordering they are recorded in an event trace (`Ev`), otherwise
  they are dropped (delete/search paths, which no ordering claim concerns).
-/

/-- `entry_key_t` (int64_t). -/
abbrev Key := Int

/-- A pointer / value-handle (`char*`); `0` is `NULL`. -/
abbrev Ptr := Nat

/-- `LONG_MAX`, the empty-slot sentinel key. -/
def LONG_MAX : Key := 2 ^ 63 - 1

/-- `PAGESIZE` (512 bytes). -/
def PAGESIZE : Nat := 512

/-- `CACHE_LINE_SIZE` (64 bytes). -/
def CACHE_LINE_SIZE : Nat := 64

/-- `sizeof(header)` = 48 bytes: `leftmost_ptr` 8 + `sibling_ptr` 8 +
`level` 4 + `switch_counter` 1 + `is_deleted` 1 + `last_index` 2 + `mtx` 8 +
`highest` 8 + `dummy[1]` 8, with no padding (the pmdk variant's own comment
says "header in persistent memory, 48 bytes"). -/
def headerSize : Nat := 48

/-- `sizeof(entry)` = 16 bytes (8-byte key + 8-byte pointer). -/
def entrySize : Nat := 16

/-- `cardinality = (PAGESIZE - sizeof(header)) / sizeof(entry)` = (512 - 48) / 16 = 29. -/
def cardinality : Nat := (PAGESIZE - headerSize) / entrySize

/-- The C cast `(char *)key` used by `btree_search` to compare a found
value-handle against the key itself: an `int64_t` reinterpreted as a 64-bit
pointer (two's complement bit pattern). -/
def ptrOfKey (k : Key) : Ptr := (k.emod (2 ^ 64)).toNat

/-- A `(key, pointer)` slot (`class entry`). -/
structure Entry where
  key : Key
  ptr : Ptr
deriving DecidableEq, Repr

/-- The value an `entry` holds after its constructor ran
(`key = LONG_MAX; ptr = NULL;`), and the `getD` default for reads past the end
of the 28-slot array. -/
def defaultEntry : Entry := ⟨LONG_MAX, 0⟩

/-- `class header`.  The mutex is dropped (sequential model).  `highest` is NOT
assigned by the constructor in the source; see `headerNew`. -/
structure Header where
  leftmost_ptr : Ptr
  sibling_ptr : Ptr
  level : Nat
  switch_counter : Nat
  is_deleted : Bool
  last_index : Int
  highest : Key
deriving DecidableEq, Repr

/-- The `header()` constructor.  It assigns `leftmost_ptr`, `sibling_ptr`,
`switch_counter`, `last_index` and `is_deleted` but never writes `highest`
(nor `level`, which the `page` constructor sets).  The uninitialized memory
behind `highest` is modelled by the explicit parameter `uninit_highest`: the
constructed header keeps whatever bit pattern was there. -/
def headerNew (uninit_highest : Key) : Header :=
  { leftmost_ptr := 0
    sibling_ptr := 0
    level := 0
    switch_counter := 0
    is_deleted := false
    last_index := -1
    highest := uninit_highest }

/-- `class page`: one 512-byte node, a header plus `cardinality` slots. -/
structure Page where
  hdr : Header
  records : List Entry
deriving DecidableEq, Repr

/-- `page(uint32_t level)`: default-construct all entries
(`key = LONG_MAX, ptr = NULL`), set the level, and (redundantly) null
`records[0].ptr`.  `highest` stays uninitialized (`uninit_highest`). -/
def pageNew (level : Nat) (uninit_highest : Key) : Page :=
  { hdr := { headerNew uninit_highest with level := level }
    records := List.replicate cardinality defaultEntry }

/-- `page(page *left, entry_key_t key, page *right, uint32_t level)`: the
constructor used when the tree grows a new root.  Sets `leftmost_ptr`, one
entry `(key, right)`, the null terminator at slot 1, and `last_index = 0`.
(The whole-page `clflush` it issues is recorded by the caller in `exec`.) -/
def pageNewRoot (left : Ptr) (key : Key) (right : Ptr) (level : Nat)
    (uninit_highest : Key) : Page :=
  { hdr := { headerNew uninit_highest with
              leftmost_ptr := left, level := level, last_index := 0 }
    records :=
      ((List.replicate cardinality defaultEntry).set 0 ⟨key, right⟩).set 1
        ⟨LONG_MAX, 0⟩ }

/-- The contiguous prefix of a record array before the first slot whose
value-handle is `NULL`. -/
def validPrefix (l : List Entry) : List Entry :=
  l.takeWhile (fun e => e.ptr ≠ 0)

/-- The valid entries of a node: the contiguous prefix before the first slot
whose value-handle is `NULL`. -/
def validEntries (p : Page) : List Entry := validPrefix p.records

/-- The key sequence of a list of entries. -/
def entryKeys (l : List Entry) : List Key := l.map (·.key)

/-- "Valid entries are key-sorted ascending" (non-strict: duplicate inserts
are possible and keep equal keys adjacent). -/
def keySorted (l : List Entry) : Prop := (entryKeys l).Sorted (· ≤ ·)

/-- Persistence / write events, for the claims about flush ordering.  A flush
event names the page id it flushes where the context provides one; the events
emitted inside `insert_key` concern the node the call mutates (its `this`),
which the page-local function does not know by id, so they carry slot indices
only. -/
inductive Ev where
  /-- `clflush` of a whole 512-byte page (`clflush((char *)sibling, sizeof(page))`). -/
  | flushPage (pid : Ptr)
  /-- The store `hdr.sibling_ptr = sibling` redirecting `pid`'s sibling pointer. -/
  | writeSibling (pid : Ptr) (target : Ptr)
  /-- `clflush((char *)&hdr, sizeof(hdr))`. -/
  | flushHeader (pid : Ptr)
  /-- `clflush((char *)&records[m], sizeof(entry))` after nulling the split slot. -/
  | flushSplitEntry (pid : Ptr) (idx : Nat)
  /-- `clflush((char *)&hdr.last_index, sizeof(int16_t))`. -/
  | flushLastIndex (pid : Ptr)
  /-- The call `btree_insert_internal(NULL, split_key, sibling, level + 1)`
  handing the split key to the parent level. -/
  | parentInsert (split_key : Key) (sibling : Ptr)
  /-- `setNewRoot`: `root = new_root; clflush(&root); ++height`. -/
  | setNewRoot (rid : Ptr)
  /-- `insert_key` empty-page case: `clflush((char *)this, CACHE_LINE_SIZE)`. -/
  | insFlushFirstLine
  /-- `insert_key`: `clflush(&records[num_entries+1].ptr, sizeof(char *))`. -/
  | insFlushEndPtr (idx : Nat)
  /-- `insert_key` shift loop: `clflush((char *)records_ptr, CACHE_LINE_SIZE)`. -/
  | insFlushLine (idx : Nat)
  /-- `insert_key`: `clflush((char *)&records[i+1], sizeof(entry))` on placement. -/
  | insFlushEntry (idx : Nat)
deriving DecidableEq, Repr

/-- Byte offset of `records[i]` inside its (64-byte-aligned) page: the header
occupies the first 48 bytes, entries are 16 bytes each. -/
def entryOffset (i : Nat) : Nat := headerSize + entrySize * i

/-- The flush-boundary rule of the FAST shift, verbatim from the source:
```
int remainder = records_ptr % CACHE_LINE_SIZE;
bool do_flush = (remainder == 0) ||
  ((((int)(remainder + sizeof(entry)) / CACHE_LINE_SIZE) == 1) &&
   ((remainder + sizeof(entry)) % CACHE_LINE_SIZE) != 0);
```
with `records_ptr = &records[i]` and the page 64-byte aligned. -/
def doFlushAt (i : Nat) : Bool :=
  let remainder := entryOffset i % CACHE_LINE_SIZE
  remainder = 0 ∨
    ((remainder + entrySize) / CACHE_LINE_SIZE = 1 ∧
      (remainder + entrySize) % CACHE_LINE_SIZE ≠ 0)

/-- The backward shift loop of FAST `insert_key`
(`for (i = *num_entries - 1; i >= 0; i--) ...`), processing slot `i` and
recursing down to slot `0`.  Returns the updated slots, the `inserted` flag and
the flush events.  The successive per-field stores to slot `i+1`
(`ptr`, then `key` — and on placement `ptr` again) land in the same slot with
the later store overwriting the earlier, so each iteration is one whole-entry
write of the final value. -/
def fastShift (key : Key) (ptr : Ptr) (flush : Bool) :
    List Entry → Nat → List Entry × Bool × List Ev
  | recs, 0 =>
    let e0 := recs.getD 0 defaultEntry
    if key < e0.key then
      -- shift records[0] into slot 1; the loop then ends with inserted == 0
      (recs.set 1 e0, false, if flush ∧ doFlushAt 1 then [Ev.insFlushLine 1] else [])
    else
      -- place the new entry at slot 1 and break
      (recs.set 1 ⟨key, ptr⟩, true, if flush then [Ev.insFlushEntry 1] else [])
  | recs, i + 1 =>
    let ei := recs.getD (i + 1) defaultEntry
    if key < ei.key then
      let recs' := recs.set (i + 2) ei
      let evs := if flush ∧ doFlushAt (i + 2) then [Ev.insFlushLine (i + 2)] else []
      let r := fastShift key ptr flush recs' i
      (r.1, r.2.1, evs ++ r.2.2)
    else
      (recs.set (i + 2) ⟨key, ptr⟩, true, if flush then [Ev.insFlushEntry (i + 2)] else [])

/-- `page::insert_key(key, ptr, num_entries, flush, update_last_index)`:
the FAST node-local insert.  Returns the updated page, the incremented
`*num_entries`, and the flush events.  Structure, in source order:
1. if the switch counter is forward (even) it is left alone, otherwise it is
   incremented (`if (!IS_FORWARD(hdr.switch_counter)) ++hdr.switch_counter;`);
2. empty-page fast path writing slot 0 and the terminator at slot 1;
3. otherwise pre-write the terminator `records[n+1].ptr = records[n].ptr`
   (slot `n` holds the current null terminator), run the backward shift loop,
   and if the loop ran past slot 0, place the entry at slot 0 (the transient
   `records[0].ptr = leftmost_ptr` store is overwritten by `records[0].ptr =
   ptr` in the same slot);
4. `hdr.last_index = *num_entries` (when `update_last_index`), `++*num_entries`. -/
def insertKey (p : Page) (key : Key) (ptr : Ptr) (num_entries : Nat)
    (flush : Bool) (update_last_index : Bool) : Page × Nat × List Ev :=
  let c := p.hdr.switch_counter
  let sc := if ¬ c % 2 = 0 then (c + 1) % 256 else c
  let li : Int := if update_last_index then (num_entries : Int) else p.hdr.last_index
  if num_entries = 0 then
    let recs := (p.records.set 0 ⟨key, ptr⟩).set 1
      ⟨(p.records.getD 1 defaultEntry).key, 0⟩
    ({ hdr := { p.hdr with switch_counter := sc, last_index := li }
       records := recs },
     num_entries + 1,
     if flush then [Ev.insFlushFirstLine] else [])
  else
    let recs0 := p.records.set (num_entries + 1)
      ⟨(p.records.getD (num_entries + 1) defaultEntry).key,
       (p.records.getD num_entries defaultEntry).ptr⟩
    let evs0 := if flush ∧ (entryOffset (num_entries + 1) + 8) % CACHE_LINE_SIZE = 0
      then [Ev.insFlushEndPtr (num_entries + 1)] else []
    let r := fastShift key ptr flush recs0 (num_entries - 1)
    let recs2 := if r.2.1 then r.1 else r.1.set 0 ⟨key, ptr⟩
    let evs2 := if r.2.1 then [] else if flush then [Ev.insFlushEntry 0] else []
    ({ hdr := { p.hdr with switch_counter := sc, last_index := li }
       records := recs2 },
     num_entries + 1,
     evs0 ++ r.2.2 ++ evs2)

/-- The scan-and-shift loop of `page::remove_key`
(`for (i = 0; records[i].ptr != NULL; ++i) ...`) with explicit fuel (the loop
is bounded by the array, fuel `records.length + 1` suffices).  On finding the
key it stores the left neighbour's pointer (or `leftmost_ptr` at slot 0) into
the slot — a transient state overwritten in the same iteration by the shift
`records[i] = records[i+1]`. -/
def removeLoop (key : Key) (leftmost : Ptr) :
    List Entry → Nat → Bool → Nat → List Entry × Bool
  | recs, _, shift, 0 => (recs, shift)
  | recs, i, shift, fuel + 1 =>
    let ei := recs.getD i defaultEntry
    if ei.ptr = 0 then (recs, shift)
    else
      let recs1 :=
        if ¬ shift ∧ ei.key = key then
          recs.set i ⟨ei.key, if i = 0 then leftmost else (recs.getD (i - 1) defaultEntry).ptr⟩
        else recs
      let shift1 := if ¬ shift ∧ ei.key = key then true else shift
      if shift1 then
        let en := recs1.getD (i + 1) defaultEntry
        removeLoop key leftmost (recs1.set i ⟨en.key, en.ptr⟩) (i + 1) shift1 fuel
      else
        removeLoop key leftmost recs1 (i + 1) shift1 fuel

/-- `page::remove_key(key)`: set the switch counter to reverse
(`if (IS_FORWARD(hdr.switch_counter)) ++hdr.switch_counter;`), run the
scan-and-shift loop, and decrement `last_index` if a shift happened.
Returns the updated page and the `shift` flag ("found and removed").
(Its cache-line flushes affect no ordering claim and are not logged.) -/
def removeKey (p : Page) (key : Key) : Page × Bool :=
  let c := p.hdr.switch_counter
  let sc := if c % 2 = 0 then (c + 1) % 256 else c
  let r := removeLoop key p.hdr.leftmost_ptr p.records 0 false (p.records.length + 1)
  let li : Int := if r.2 then p.hdr.last_index - 1 else p.hdr.last_index
  ({ hdr := { p.hdr with switch_counter := sc, last_index := li }
     records := r.1 },
   r.2)

/-- The forward walk of `page::count()`:
`while (count >= 0 && records[count].ptr != NULL) ++count;`
(reads past the last slot hit default-constructed memory, modelled by `getD`'s
null-pointer default, so the walk always stops; fuel bounds it). -/
def countWalkFwd (recs : List Entry) : Int → Nat → Int
  | c, 0 => c
  | c, fuel + 1 =>
    if 0 ≤ c ∧ (recs.getD c.toNat defaultEntry).ptr ≠ 0 then
      countWalkFwd recs (c + 1) fuel
    else c

/-- The backward walk of `page::count()` (reverse mode): `--count` instead. -/
def countWalkBwd (recs : List Entry) : Int → Nat → Int
  | c, 0 => c
  | c, fuel + 1 =>
    if 0 ≤ c ∧ (recs.getD c.toNat defaultEntry).ptr ≠ 0 then
      countWalkBwd recs (c - 1) fuel
    else c

/-- The fallback of `page::count()`:
`count = 0; while (records[count].ptr != NULL) ++count;`. -/
def countFromZero (recs : List Entry) : Nat → Nat → Nat
  | c, 0 => c
  | c, fuel + 1 =>
    if (recs.getD c defaultEntry).ptr ≠ 0 then countFromZero recs (c + 1) fuel
    else c

/-- `page::count()`: start from `last_index + 1`, walk forward if the switch
counter is even, backward if odd, and fall back to a forward scan from 0 if
the walk went negative.  The `do/while` counter-revalidation runs the body
once in the sequential model. -/
def pageCount (p : Page) : Nat :=
  let c0 : Int := p.hdr.last_index + 1
  let c1 : Int :=
    if p.hdr.switch_counter % 2 = 0 then
      countWalkFwd p.records c0 (p.records.length + 2)
    else
      countWalkBwd p.records c0 (p.records.length + 2)
  if c1 < 0 then countFromZero p.records 0 (p.records.length + 2)
  else c1.toNat

/-- The heap of pages.  Page ids are `1, 2, ...`; id `pid` lives at list index
`pid - 1`; `0` is `NULL` and never resolves. -/
def lookupPage (heap : List Page) (pid : Ptr) : Option Page :=
  if pid = 0 then none else heap[pid - 1]?

/-- Store page `pid` back into the heap (in-place mutation of `*pid`). -/
def setPage (heap : List Page) (pid : Ptr) (p : Page) : List Page :=
  heap.set (pid - 1) p

/-- Leaf forward scan of `page::linear_search` — the slot-0 special case
followed by `for (i = 1; records[i].ptr != NULL; ++i)`.  The duplicate filter
rejects an entry whose handle equals its left neighbour's
(`records[i-1].ptr != (t = records[i].ptr)`); the re-read
`if (k == records[i].key)` is the identity sequentially. -/
def leafFwdLoop (recs : List Entry) (key : Key) : Nat → Nat → Ptr
  | _, 0 => 0
  | i, fuel + 1 =>
    let ei := recs.getD i defaultEntry
    if ei.ptr = 0 then 0
    else if ei.key = key ∧ (recs.getD (i - 1) defaultEntry).ptr ≠ ei.ptr then ei.ptr
    else leafFwdLoop recs key (i + 1) fuel

/-- Leaf backward scan of `page::linear_search`:
`for (i = count() - 1; i > 0; --i)` with the duplicate filter and a nonnull
check, then a slot-0 retry if nothing was found. -/
def leafBwdLoop (recs : List Entry) (key : Key) : Int → Nat → Ptr
  | _, 0 => 0
  | i, fuel + 1 =>
    if i ≤ 0 then 0
    else
      let ei := recs.getD i.toNat defaultEntry
      if ei.key = key ∧ (recs.getD (i.toNat - 1) defaultEntry).ptr ≠ ei.ptr ∧ ei.ptr ≠ 0 then
        ei.ptr
      else leafBwdLoop recs key (i - 1) fuel

/-- `page::linear_search` on a leaf (`hdr.leftmost_ptr == NULL`): run the
direction-selected scan (`do/while` body once, sequentially), then return the
found handle, else the sibling pointer if `key >= sibling->hdr.highest`
(sibling overshoot), else `NULL`. -/
def leafSearch (heap : List Page) (p : Page) (key : Key) : Ptr :=
  let r0 := p.records.getD 0 defaultEntry
  let ret :=
    if p.hdr.switch_counter % 2 = 0 then
      if r0.key = key ∧ r0.ptr ≠ 0 then r0.ptr
      else leafFwdLoop p.records key 1 (p.records.length + 1)
    else
      let r := leafBwdLoop p.records key ((pageCount p : Int) - 1) (p.records.length + 1)
      if r ≠ 0 then r
      else if r0.key = key ∧ r0.ptr ≠ 0 then r0.ptr
      else 0
  if ret ≠ 0 then ret
  else
    match lookupPage heap p.hdr.sibling_ptr with
    | some s => if key ≥ s.hdr.highest then p.hdr.sibling_ptr else 0
    | none => 0

/-- Internal forward scan of `page::linear_search`:
`for (i = 1; records[i].ptr != NULL; ++i)`, returning `records[i-1].ptr` at
the first key greater than the target (subject to the duplicate filter), or
`records[i-1].ptr` for the terminating slot if no key was greater. -/
def internalFwdLoop (recs : List Entry) (key : Key) : Nat → Nat → Ptr
  | _, 0 => 0
  | i, fuel + 1 =>
    let ei := recs.getD i defaultEntry
    let prev := (recs.getD (i - 1) defaultEntry).ptr
    if ei.ptr = 0 then prev
    else if key < ei.key ∧ prev ≠ ei.ptr then prev
    else internalFwdLoop recs key (i + 1) fuel

/-- Internal backward scan of `page::linear_search`:
`for (i = count() - 1; i >= 0; --i)`, returning `records[i].ptr` at the first
key less-or-equal to the target (filtered against the left neighbour, or
against `leftmost_ptr` at slot 0); `NULL` if the loop runs out. -/
def internalBwdLoop (recs : List Entry) (leftmost : Ptr) (key : Key) :
    Int → Nat → Ptr
  | _, 0 => 0
  | i, fuel + 1 =>
    if i < 0 then 0
    else
      let ei := recs.getD i.toNat defaultEntry
      if key ≥ ei.key then
        if i = 0 then (if leftmost ≠ ei.ptr then ei.ptr else 0)
        else if (recs.getD (i.toNat - 1) defaultEntry).ptr ≠ ei.ptr then ei.ptr
        else internalBwdLoop recs leftmost key (i - 1) fuel
      else internalBwdLoop recs leftmost key (i - 1) fuel

/-- `page::linear_search` on an internal node: scan (body once, sequentially);
then, in source order, return the sibling on overshoot
(`key >= sibling->hdr.highest`), else the scan result, else `leftmost_ptr`. -/
def internalSearch (heap : List Page) (p : Page) (key : Key) : Ptr :=
  let r0 := p.records.getD 0 defaultEntry
  let ret :=
    if p.hdr.switch_counter % 2 = 0 then
      if key < r0.key ∧ p.hdr.leftmost_ptr ≠ r0.ptr then p.hdr.leftmost_ptr
      else internalFwdLoop p.records key 1 (p.records.length + 1)
    else
      internalBwdLoop p.records p.hdr.leftmost_ptr key ((pageCount p : Int) - 1)
        (p.records.length + 1)
  let overshoot : Bool :=
    match lookupPage heap p.hdr.sibling_ptr with
    | some s => decide (key ≥ s.hdr.highest)
    | none => false
  if overshoot then p.hdr.sibling_ptr
  else if ret ≠ 0 then ret
  else p.hdr.leftmost_ptr

/-- `page::linear_search(key)`: leaf or internal dispatch on
`hdr.leftmost_ptr == NULL`. -/
def linearSearch (heap : List Page) (p : Page) (key : Key) : Ptr :=
  if p.hdr.leftmost_ptr = 0 then leafSearch heap p key
  else internalSearch heap p key

/-- Forward loop of `page::linear_search_range`
(`for (i = 1; records[i].ptr != NULL; ++i)`).  The result's `Bool` is the
"stopped" flag: `true` models the early `return` taken when a scanned key is
`>= max`; the handles appended so far are kept either way (the C code wrote
them into the caller's buffer already). -/
def lsrFwdLoop (recs : List Entry) (mn mx : Key) :
    Nat → List Ptr → Nat → List Ptr × Bool
  | _, buf, 0 => (buf, false)
  | i, buf, fuel + 1 =>
    let ei := recs.getD i defaultEntry
    if ei.ptr = 0 then (buf, false)
    else if ei.key > mn then
      if ei.key < mx then
        lsrFwdLoop recs mn mx (i + 1)
          (if ei.ptr ≠ (recs.getD (i - 1) defaultEntry).ptr then buf ++ [ei.ptr] else buf)
          fuel
      else (buf, true)
    else lsrFwdLoop recs mn mx (i + 1) buf fuel

/-- Forward direction of one leaf's `linear_search_range` body: the slot-0
special case (append if `min < key < max` and the handle is nonnull; `return`
if `key >= max` and `key > min`), then the forward loop. -/
def lsrLeafFwd (recs : List Entry) (mn mx : Key) (buf : List Ptr) :
    List Ptr × Bool :=
  let r0 := recs.getD 0 defaultEntry
  if r0.key > mn then
    if r0.key < mx then
      lsrFwdLoop recs mn mx 1 (if r0.ptr ≠ 0 then buf ++ [r0.ptr] else buf)
        (recs.length + 1)
    else (buf, true)
  else lsrFwdLoop recs mn mx 1 buf (recs.length + 1)

/-- Backward loop of `page::linear_search_range`
(`for (i = count() - 1; i > 0; --i)`): same filters, appending while walking
right-to-left, so matches are appended in descending key order. -/
def lsrBwdLoop (recs : List Entry) (mn mx : Key) :
    Int → List Ptr → Nat → List Ptr × Bool
  | _, buf, 0 => (buf, false)
  | i, buf, fuel + 1 =>
    if i ≤ 0 then (buf, false)
    else
      let ei := recs.getD i.toNat defaultEntry
      if ei.key > mn then
        if ei.key < mx then
          lsrBwdLoop recs mn mx (i - 1)
            (if ei.ptr ≠ (recs.getD (i.toNat - 1) defaultEntry).ptr ∧ ei.ptr ≠ 0
             then buf ++ [ei.ptr] else buf)
            fuel
        else (buf, true)
      else lsrBwdLoop recs mn mx (i - 1) buf fuel

/-- Backward direction of one leaf's `linear_search_range` body: the backward
loop from `count() - 1` down to 1, then the slot-0 special case. -/
def lsrLeafBwd (p : Page) (mn mx : Key) (buf : List Ptr) : List Ptr × Bool :=
  let r := lsrBwdLoop p.records mn mx ((pageCount p : Int) - 1) buf
    (p.records.length + 1)
  if r.2 then r
  else
    let r0 := p.records.getD 0 defaultEntry
    if r0.key > mn then
      if r0.key < mx then
        ((if r0.ptr ≠ 0 then r.1 ++ [r0.ptr] else r.1), false)
      else (r.1, true)
    else (r.1, false)

/-- The sibling-chain loop of `page::linear_search_range`
(`while (current) { ...scan...; current = current->hdr.sibling_ptr; }`),
scanning each leaf in the direction selected by its switch counter
(the `do/while` counter revalidation runs each body once, sequentially). -/
def lsRangeChain (heap : List Page) (mn mx : Key) :
    Nat → Ptr → List Ptr → List Ptr
  | 0, _, buf => buf
  | fuel + 1, pid, buf =>
    match lookupPage heap pid with
    | none => buf
    | some p =>
      let r :=
        if p.hdr.switch_counter % 2 = 0 then lsrLeafFwd p.records mn mx buf
        else lsrLeafBwd p mn mx buf
      if r.2 then r.1
      else lsRangeChain heap mn mx fuel p.hdr.sibling_ptr r.1

/-- The descent loop `while (p->hdr.leftmost_ptr != NULL) p = p->linear_search(key);`
shared by `btree_insert`, `btree_search` and `btree_delete`.  Returns the page
id it stops at (a dangling id is returned as-is; well-formed states never
produce one). -/
def descendToLeaf (heap : List Page) : Nat → Ptr → Key → Ptr
  | 0, pid, _ => pid
  | fuel + 1, pid, key =>
    match lookupPage heap pid with
    | none => pid
    | some p =>
      if p.hdr.leftmost_ptr = 0 then pid
      else descendToLeaf heap fuel (linearSearch heap p key) key

/-- The descent loop of `btree_insert_internal`:
`while (p->hdr.level > level) p = p->linear_search(key);`. -/
def descendToLevel (heap : List Page) : Nat → Ptr → Key → Nat → Ptr
  | 0, pid, _, _ => pid
  | fuel + 1, pid, key, level =>
    match lookupPage heap pid with
    | none => pid
    | some p =>
      if p.hdr.level > level then
        descendToLevel heap fuel (linearSearch heap p key) key level
      else pid

/-- The whole index: the heap of pages, the root pointer and the height. -/
structure BTree where
  heap : List Page
  root : Ptr
  height : Nat
deriving DecidableEq, Repr

/-- `btree::btree()`: one fresh leaf as root, height 1. -/
def btreeNew : BTree := { heap := [pageNew 0 0], root := 1, height := 1 }

/-- The split position computed in `page::store`:
`register int m = (int) ceil(num_entries/2);` — `num_entries/2` is C integer
division (truncating), and `ceil` is then applied to an already-integral
value. -/
def storeSplitPos (num_entries : Nat) : Nat :=
  Nat.ceil ((num_entries / 2 : Nat) : ℚ)

/-- The switch-counter bump of the FAIR split:
`if (IS_FORWARD(hdr.switch_counter)) hdr.switch_counter += 2; else
++hdr.switch_counter;` (uint8_t, wraps mod 256). -/
def splitBump (c : Nat) : Nat :=
  if c % 2 = 0 then (c + 2) % 256 else (c + 1) % 256

/-- The split's migration loop
(`for (int i = m; i < num_entries; ++i) sibling->insert_key(..., false);`),
expressed over the explicit index list `idxs` (`List.range' m (n - m)`). -/
def migrateList (src : List Entry) (idxs : List Nat) (pg : Page) (cnt : Nat) :
    Page × Nat × List Ev :=
  match idxs with
  | [] => (pg, cnt, [])
  | i :: rest =>
    let e := src.getD i defaultEntry
    let r := insertKey pg e.key e.ptr cnt false true
    let r' := migrateList src rest r.1 r.2.1
    (r'.1, r'.2.1, r.2.2 ++ r'.2.2)

/-- The migration part of the FAIR split: leaf pages copy slots `[m, n)`
into the fresh sibling, internal pages copy `[m+1, n)` and seed the sibling's
`leftmost_ptr` with `records[m].ptr`. -/
def splitMigrate (p : Page) (m num_entries : Nat) : Page × Nat × List Ev :=
  let sib0 := pageNew p.hdr.level 0
  if p.hdr.leftmost_ptr = 0 then
    migrateList p.records (List.range' m (num_entries - m)) sib0 0
  else
    let r := migrateList p.records (List.range' (m + 1) (num_entries - (m + 1))) sib0 0
    ({ r.1 with hdr := { r.1.hdr with
         leftmost_ptr := (p.records.getD m defaultEntry).ptr } },
     r.2.1, r.2.2)

/-- The non-recursive tail of `page::store`'s FAIR-split branch: migrate the
upper half into the sibling, chain and flush it, redirect and flush the
header, bump the switch counter, null `records[m]` and flush it, update
`last_index` and flush it, and insert the pending key into the proper half.
Returns `((heap, returned page id, event trace), split_key)`; the caller
(`exec`) then either grows a new root or inserts `split_key` into the parent
level. -/
def storeSplitStep (bt : BTree) (pid : Ptr) (p : Page) (key : Key)
    (right : Ptr) : (List Page × Ptr × List Ev) × Key :=
  let num_entries := pageCount p
  let m := storeSplitPos num_entries
  let split_key := (p.records.getD m defaultEntry).key
  let mig := splitMigrate p m num_entries
  let sib2 := { mig.1 with hdr := { mig.1.hdr with
                 highest := split_key, sibling_ptr := p.hdr.sibling_ptr } }
  let sid := bt.heap.length + 1
  let heap1 := bt.heap ++ [sib2]
  let pA := { p with hdr := { p.hdr with sibling_ptr := sid } }
  let pB := { pA with
    hdr := { pA.hdr with switch_counter := splitBump pA.hdr.switch_counter }
    records := pA.records.set m ⟨(pA.records.getD m defaultEntry).key, 0⟩ }
  let pC := { pB with hdr := { pB.hdr with last_index := (m : Int) - 1 } }
  let heap2 := setPage heap1 pid pC
  let evs5 := [Ev.flushPage sid, Ev.writeSibling pid sid, Ev.flushHeader pid,
               Ev.flushSplitEntry pid m, Ev.flushLastIndex pid]
  let num2 := (pC.hdr.last_index + 1).toNat
  let ins :=
    if key < split_key then
      let r := insertKey pC key right num2 true true
      (setPage heap2 pid r.1, pid, r.2.2)
    else
      let r := insertKey sib2 key right mig.2.1 true true
      (setPage heap2 sid r.1, sid, r.2.2)
  ((ins.1, ins.2.1, mig.2.2 ++ evs5 ++ ins.2.2), split_key)

/-- The mutually recursive entry points that can re-enter each other
(`store` recursing into a sibling, `store` calling `btree_insert_internal`
after a split, and the retry recursions of `btree_insert` /
`btree_insert_internal` when `store` returns `NULL`), folded into one
fuel-indexed executor so the recursion is structural on the fuel. -/
inductive Call where
  | store (pid : Ptr) (key : Key) (right : Ptr) (flush : Bool) (invalid_sibling : Ptr)
  | insertInternal (key : Key) (right : Ptr) (level : Nat)
  | insert (key : Key) (right : Ptr)
deriving DecidableEq, Repr

/-- Executor for `page::store`, `btree::btree_insert_internal` and
`btree::btree_insert`.  Returns the new tree state, the `page*` return value
of `store` (`0` = `NULL`; meaningless for the void btree entry points), and
the emitted event trace.  `store`'s unused `left` argument (always `NULL` at
every call site) is dropped.  Structure of the `store` case, in source order:
1. `NULL` on `hdr.is_deleted`;
2. sibling-overshoot forwarding
   (`if (hdr.sibling_ptr && sibling != invalid_sibling && key >= sibling->hdr.highest)`);
3. FAST path when `count() < cardinality - 1`;
4. otherwise the FAIR split: allocate the sibling, migrate the upper half
   (leaf: slots `[m, n)`; internal: slots `[m+1, n)` plus
   `sibling->hdr.leftmost_ptr = records[m].ptr`), set `sibling->hdr.highest =
   records[m].key`, chain it (`sibling->hdr.sibling_ptr = hdr.sibling_ptr`),
   flush the sibling wholesale, redirect `hdr.sibling_ptr`, flush the header,
   bump the switch counter, null `records[m]` and flush it, set
   `hdr.last_index = m - 1` and flush it, insert the new key into the proper
   half, and finally either grow a new root or hand the split key to the
   parent level. -/
def exec : Nat → BTree → Call → BTree × Ptr × List Ev
  | 0, bt, _ => (bt, 0, [])
  | fuel + 1, bt, Call.store pid key right flush inv =>
    (match lookupPage bt.heap pid with
    | none => (bt, 0, [])
    | some p =>
      if p.hdr.is_deleted then (bt, 0, [])
      else
        let overshoot : Bool :=
          if p.hdr.sibling_ptr ≠ 0 ∧ p.hdr.sibling_ptr ≠ inv then
            match lookupPage bt.heap p.hdr.sibling_ptr with
            | some s => decide (key ≥ s.hdr.highest)
            | none => false
          else false
        if overshoot then
          exec fuel bt (Call.store p.hdr.sibling_ptr key right true inv)
        else
          let num_entries := pageCount p
          if num_entries < cardinality - 1 then
            let r := insertKey p key right num_entries flush true
            ({ bt with heap := setPage bt.heap pid r.1 }, pid, r.2.2)
          else
            let sp := storeSplitStep bt pid p key right
            let split_key := sp.2
            let sid := bt.heap.length + 1
            if bt.root = pid then
              let rid := sp.1.1.length + 1
              let newRoot := pageNewRoot pid split_key sid (p.hdr.level + 1) 0
              ({ heap := sp.1.1 ++ [newRoot], root := rid, height := bt.height + 1 },
               sp.1.2.1,
               sp.1.2.2 ++ [Ev.flushPage rid, Ev.setNewRoot rid])
            else
              let rc := exec fuel { bt with heap := sp.1.1 }
                (Call.insertInternal split_key sid (p.hdr.level + 1))
              (rc.1, sp.1.2.1,
               sp.1.2.2 ++ [Ev.parentInsert split_key sid] ++ rc.2.2))
  | fuel + 1, bt, Call.insertInternal key right level =>
    (match lookupPage bt.heap bt.root with
    | none => (bt, 0, [])
    | some rootp =>
      if level > rootp.hdr.level then (bt, 0, [])
      else
        let pid := descendToLevel bt.heap (bt.heap.length + 1) bt.root key level
        let r := exec fuel bt (Call.store pid key right true 0)
        if r.2.1 = 0 then
          let r2 := exec fuel r.1 (Call.insertInternal key right level)
          (r2.1, r2.2.1, r.2.2 ++ r2.2.2)
        else r)
  | fuel + 1, bt, Call.insert key right =>
    let pid := descendToLeaf bt.heap (bt.heap.length + 1) bt.root key
    let r := exec fuel bt (Call.store pid key right true 0)
    if r.2.1 = 0 then
      let r2 := exec fuel r.1 (Call.insert key right)
      (r2.1, r2.2.1, r.2.2 ++ r2.2.2)
    else r

/-- `btree::btree_insert(key, right)` (state part). -/
def btreeInsert (fuel : Nat) (bt : BTree) (key : Key) (right : Ptr) : BTree :=
  (exec fuel bt (Call.insert key right)).1

/-- The sibling-follow loop of `btree_search`
(`while ((t = p->linear_search(key)) == p->hdr.sibling_ptr) { p = t; if (!p)
break; }`), returning the final `t`. -/
def searchLoop (heap : List Page) (key : Key) : Nat → Ptr → Ptr
  | 0, _ => 0
  | fuel + 1, pid =>
    match lookupPage heap pid with
    | none => 0
    | some p =>
      let t := linearSearch heap p key
      if t = p.hdr.sibling_ptr then (if t = 0 then 0 else searchLoop heap key fuel t)
      else t

/-- `btree::btree_search(key)`: descend to a leaf, follow siblings, then the
final check `if (!t || (char *)t != (char *)key) return NULL; return t;` —
the found handle is compared with the key itself reinterpreted as a pointer. -/
def btreeSearch (fuel : Nat) (bt : BTree) (key : Key) : Ptr :=
  let leaf := descendToLeaf bt.heap (bt.heap.length + 1) bt.root key
  let t := searchLoop bt.heap key fuel leaf
  if t = 0 ∨ t ≠ ptrOfKey key then 0 else t

/-- The sibling-follow loop of `btree_delete`, returning the final `p`
(`0` when the loop broke on a null `t`). -/
def deleteLoop (heap : List Page) (key : Key) : Nat → Ptr → Ptr
  | 0, pid => pid
  | fuel + 1, pid =>
    match lookupPage heap pid with
    | none => pid
    | some p =>
      let t := linearSearch heap p key
      if t = p.hdr.sibling_ptr then (if t = 0 then 0 else deleteLoop heap key fuel t)
      else pid

/-- `btree::btree_delete(key)`: descend to a leaf, follow siblings; if `p` is
null, print "not found" and stop; otherwise `p->remove` (which runs
`remove_key` under the node lock) and, when it returns `false`, retry the
whole delete from the root (`if (!p->remove(this, key)) btree_delete(key);`).
The retry consumes fuel; `none` means the fuel ran out — i.e. the call has
not terminated within `fuel` re-descents. -/
def btreeDelete : Nat → BTree → Key → Option BTree
  | 0, _, _ => none
  | fuel + 1, bt, key =>
    let leaf := descendToLeaf bt.heap (bt.heap.length + 1) bt.root key
    let pid := deleteLoop bt.heap key (bt.heap.length + 1) leaf
    if pid = 0 then some bt
    else
      match lookupPage bt.heap pid with
      | none => some bt
      | some p =>
        let r := removeKey p key
        let bt' := { bt with heap := setPage bt.heap pid r.1 }
        if r.2 then some bt' else btreeDelete fuel bt' key

/-- `btree::btree_search_range(min, max, buf)`: descend from the root using
`min` to a leaf, then run the leaf-chain range scan.  The buffer is returned
as the list of appended handles. -/
def btreeSearchRange (fuel : Nat) (bt : BTree) (mn mx : Key) : List Ptr :=
  let leaf := descendToLeaf bt.heap (bt.heap.length + 1) bt.root mn
  lsRangeChain bt.heap mn mx fuel leaf []

/-! ## Concrete states used by the refutation/bug theorems -/

set_option maxRecDepth 100000

/-- A tree holding the single entry `(5, handle 700)`, built by the code
itself: `btree(); btree_insert(5, 700)`. -/
def c1tree : BTree := btreeInsert 10 btreeNew 5 700

/-- Left leaf of a two-leaf tree: keys `1, 2, 3` (handles `1001..1003`),
right sibling is page 2.  Its switch counter is odd (1), as `remove_key`
leaves it after any completed delete on this node. -/
def c2leafL : Page :=
  { hdr := { leftmost_ptr := 0, sibling_ptr := 2, level := 0,
             switch_counter := 1, is_deleted := false, last_index := 2,
             highest := 0 }
    records := (((List.replicate cardinality defaultEntry).set 0
      ⟨1, 1001⟩).set 1 ⟨2, 1002⟩).set 2 ⟨3, 1003⟩ }

/-- Right leaf: keys `14, 15`, `highest = 14` (the split key recorded when it
was created as a right sibling), no further sibling. -/
def c2leafR : Page :=
  { hdr := { leftmost_ptr := 0, sibling_ptr := 0, level := 0,
             switch_counter := 0, is_deleted := false, last_index := 1,
             highest := 14 }
    records := ((List.replicate cardinality defaultEntry).set 0
      ⟨14, 1014⟩).set 1 ⟨15, 1015⟩ }

/-- Internal root: `leftmost_ptr` = page 1, one entry `(14, page 2)` — the
layout `page::store` produces when a leaf split hands `(split_key = 14,
sibling)` to a new root. -/
def c2root : Page :=
  { hdr := { leftmost_ptr := 1, sibling_ptr := 0, level := 1,
             switch_counter := 0, is_deleted := false, last_index := 0,
             highest := 0 }
    records := (List.replicate cardinality defaultEntry).set 0 ⟨14, 2⟩ }

/-- A quiescent two-leaf tree (leaves `{1,2,3}` and `{14,15}` under an
internal root) in which key `5` has no matching entry.  Its leaf whose key
range covers `5` has a non-null sibling with `highest = 14 > 5`. -/
def c2tree : BTree := { heap := [c2leafL, c2leafR, c2root], root := 3, height := 2 }

/-- A single-leaf tree built by the code itself:
`btree(); insert(1,1001); insert(2,1002); insert(3,1003); delete(2)`.
The delete leaves the leaf's switch counter odd (backward scan mode). -/
def c6tree : BTree :=
  (btreeDelete 10
    (btreeInsert 10 (btreeInsert 10 (btreeInsert 10 btreeNew 1 1001) 2 1002) 3 1003)
    2).getD btreeNew

/-! ## C1 -/

/-- C1 (code_bug): `btree_search` does NOT return the stored value-handle for
an inserted key unless that handle happens to equal the key's own bit pattern.
On the tree built by `btree_insert(5, handle 700)` the leaf holds the valid
entry `(5, 700)`, yet `btree_search(5)` returns `NULL`, because of the final
check `if (!t || (char *)t != (char *)key) return NULL;` which compares the
found handle with the key itself (`700 != 5`).  The claim (and the spec's
`search` contract) says the non-null stored handle is returned. -/
theorem c1_search_returns_null_on_mismatched_handle :
    (c1tree.heap.getD 0 (pageNew 0 0)).records.getD 0 defaultEntry = ⟨5, 700⟩ ∧
    (700 : Ptr) ≠ 0 ∧
    btreeSearch 10 c1tree 5 = 0 :=
  ⟨rfl, by decide, rfl⟩

/-! ## C2 -/

/-- C2 (code_bug): deleting a key with no matching entry is not a terminating
no-op.  On `c2tree`, `btree_delete(5)` descends to the left leaf (since `5 <
sibling->hdr.highest = 14` the sibling-follow loop stops there), `remove_key`
finds nothing and returns `false`, and `btree_delete` then retries itself on
an unchanged tree (`if (!p->remove(this, key)) btree_delete(key);`) — forever.
Formally: for every fuel bound (number of re-descents allowed), the call has
not terminated. -/
theorem c2_delete_absent_never_terminates :
    (∀ pg ∈ c2tree.heap, ∀ e ∈ validEntries pg, e.key ≠ 5) ∧
    ∀ fuel : Nat, btreeDelete fuel c2tree 5 = none := by
  refine ⟨by decide, fun fuel => ?_⟩
  induction fuel with
  | zero => rfl
  | succ n ih => exact (show btreeDelete (n + 1) c2tree 5 = btreeDelete n c2tree 5 from rfl).trans ih

/-! ## C3 (counterexample part) -/

/-- C3 counterexample: `insert_key` on a node whose switch counter is even
(here the fresh page, counter `0`) does NOT increment it — the counter stays
`0` (even) through the whole insert, rather than becoming odd as the claim
states.  (The source guard is `if (!IS_FORWARD(hdr.switch_counter))
++hdr.switch_counter;`, i.e. it increments only an odd counter.) -/
theorem c3_even_counter_not_incremented :
    (insertKey (pageNew 0 0) 5 700 0 true true).1.hdr.switch_counter = 0 ∧
    ¬ Odd (0 : Nat) :=
  ⟨rfl, by decide⟩

/-! ## C5 -/

/-- C5 (code_bug): the `header()` constructor never assigns `highest` — the
constructed node keeps whatever bit pattern the allocation left there (the
model's `uninit_highest` parameter), not `LONG_MAX` as the claim (and the
spec's explicit MUST in §9) requires.  In particular a node constructed over
zeroed memory has `highest = 0 ≠ LONG_MAX`. -/
theorem c5_highest_not_initialized :
    (∀ g : Key, (pageNew 0 g).hdr.highest = g) ∧
    (pageNew 0 0).hdr.highest = 0 ∧ (0 : Key) ≠ LONG_MAX :=
  ⟨fun _ => rfl, rfl, by decide⟩

/-! ## C6 -/

/-- C6 (code_bug): on the quiescent single-leaf tree built by the code itself
(`insert(1,1001); insert(2,1002); insert(3,1003); delete(2)`), whose leaf
holds the key-ascending valid entries `(1,1001), (3,1003)` but whose switch
counter was left odd by the delete, `btree_search_range(0, 10)` returns the
two in-range handles in DESCENDING key order `[1003, 1001]` — the backward
scan of `linear_search_range` appends right-to-left — contradicting the
claimed ascending order `[1001, 1003]` (and the spec's own scenario 3, which
deletes keys and then expects an in-order range scan). -/
theorem c6_range_scan_descending_after_delete :
    validEntries (c6tree.heap.getD 0 (pageNew 0 0)) = [⟨1, 1001⟩, ⟨3, 1003⟩] ∧
    btreeSearchRange 10 c6tree 0 10 = [1003, 1001] ∧
    [1003, 1001] ≠ [(1001 : Ptr), 1003] :=
  ⟨by decide, rfl, by decide⟩

/-! ## Switch-counter parity (C3 amended, C10) -/

/-- The switch counter a completed `insert_key` leaves behind (it is written
once, at the top of the function, and the shift loop never touches it). -/
theorem insertKey_switch_counter (p : Page) (key : Key) (ptr : Ptr) (n : Nat)
    (flush ul : Bool) :
    (insertKey p key ptr n flush ul).1.hdr.switch_counter =
      if p.hdr.switch_counter % 2 = 0 then p.hdr.switch_counter
      else (p.hdr.switch_counter + 1) % 256 := by
  unfold insertKey
  by_cases h : n = 0 <;>
    by_cases h2 : p.hdr.switch_counter % 2 = 0 <;>
      simp [h, h2]

/-- The switch counter a completed `remove_key` leaves behind. -/
theorem removeKey_switch_counter (p : Page) (key : Key) :
    (removeKey p key).1.hdr.switch_counter =
      if p.hdr.switch_counter % 2 = 0 then (p.hdr.switch_counter + 1) % 256
      else p.hdr.switch_counter := by
  unfold removeKey
  by_cases h2 : p.hdr.switch_counter % 2 = 0 <;> simp [h2]

/-- C3 amended: at the start of every FAST insert, `insert_key` increments the
switch counter exactly when it is odd (`if (!IS_FORWARD(hdr.switch_counter))
++hdr.switch_counter;`), so the counter is even — forward-scan mode — while
the insert's shift is in progress (the counter is written only there, so the
value during the shift is the final value). -/
theorem c3_insert_counter_even_during_shift (p : Page) (key : Key) (ptr : Ptr)
    (n : Nat) (flush ul : Bool) (hc : p.hdr.switch_counter < 256) :
    ((Odd p.hdr.switch_counter →
        (insertKey p key ptr n flush ul).1.hdr.switch_counter
          = (p.hdr.switch_counter + 1) % 256) ∧
     (Even p.hdr.switch_counter →
        (insertKey p key ptr n flush ul).1.hdr.switch_counter
          = p.hdr.switch_counter)) ∧
    Even ((insertKey p key ptr n flush ul).1.hdr.switch_counter) := by
  rw [insertKey_switch_counter]
  rw [Nat.odd_iff, Nat.even_iff]
  constructor
  · constructor <;> intro h <;> simp [h]
  · by_cases h2 : p.hdr.switch_counter % 2 = 0 <;>
      simp [h2, Nat.even_iff] <;> omega

/-- Closed witness for `c3_insert_counter_even_during_shift` at a node whose
counter is 3 (odd) inserting `(5, 700)` into slot count 0. -/
theorem c3_insert_counter_even_during_shift_witness :
    ((Odd ({ pageNew 0 0 with
              hdr := { (pageNew 0 0).hdr with switch_counter := 3 } } : Page).hdr.switch_counter →
        (insertKey { pageNew 0 0 with
              hdr := { (pageNew 0 0).hdr with switch_counter := 3 } } 5 700 0 true true).1.hdr.switch_counter
          = (({ pageNew 0 0 with
              hdr := { (pageNew 0 0).hdr with switch_counter := 3 } } : Page).hdr.switch_counter + 1) % 256) ∧
     (Even ({ pageNew 0 0 with
              hdr := { (pageNew 0 0).hdr with switch_counter := 3 } } : Page).hdr.switch_counter →
        (insertKey { pageNew 0 0 with
              hdr := { (pageNew 0 0).hdr with switch_counter := 3 } } 5 700 0 true true).1.hdr.switch_counter
          = ({ pageNew 0 0 with
              hdr := { (pageNew 0 0).hdr with switch_counter := 3 } } : Page).hdr.switch_counter)) ∧
    Even ((insertKey { pageNew 0 0 with
              hdr := { (pageNew 0 0).hdr with switch_counter := 3 } } 5 700 0 true true).1.hdr.switch_counter) :=
  c3_insert_counter_even_during_shift _ 5 700 0 true true (by decide)

/-- C10: after every completed `insert_key` the node's switch counter is even,
after every completed `remove_key` it is odd, and the FAIR split's bump
(`+2` if even, `+1` if odd, mod 256) always leaves it even.  (All three hold
including at the uint8_t wrap-around.) -/
theorem c10_switch_counter_parity (p q : Page) (key key' : Key) (ptr : Ptr)
    (n : Nat) (flush ul : Bool) (c : Nat)
    (hp : p.hdr.switch_counter < 256) (hq : q.hdr.switch_counter < 256)
    (hc : c < 256) :
    Even ((insertKey p key ptr n flush ul).1.hdr.switch_counter) ∧
    Odd ((removeKey q key').1.hdr.switch_counter) ∧
    Even (splitBump c) := by
  rw [insertKey_switch_counter, removeKey_switch_counter]
  refine ⟨?_, ?_, ?_⟩
  · by_cases h2 : p.hdr.switch_counter % 2 = 0 <;>
      simp [h2, Nat.even_iff] <;> omega
  · by_cases h2 : q.hdr.switch_counter % 2 = 0 <;>
      simp [h2, Nat.odd_iff] <;> omega
  · unfold splitBump
    by_cases h2 : c % 2 = 0 <;> simp [h2, Nat.even_iff] <;> omega

/-- Closed witness for `c10_switch_counter_parity` on fresh pages
(counter 0) and split bump at counter 0. -/
theorem c10_switch_counter_parity_witness :
    Even ((insertKey (pageNew 0 0) 5 700 0 true true).1.hdr.switch_counter) ∧
    Odd ((removeKey (pageNew 0 0) 5).1.hdr.switch_counter) ∧
    Even (splitBump 0) :=
  c10_switch_counter_parity (pageNew 0 0) (pageNew 0 0) 5 5 700 0 true true 0
    (by decide) (by decide) (by decide)

/-! ## List helpers for the shift-loop characterizations -/

theorem getD_set_ne {α : Type*} (l : List α) (m t : Nat) (a d : α) (h : t ≠ m) :
    (l.set m a).getD t d = l.getD t d := by
  simp [List.getD_eq_getElem?_getD, List.getElem?_set_ne (Ne.symm h)]

theorem take_set_of_le {α : Type*} (l : List α) (m n : Nat) (a : α) (h : n ≤ m) :
    (l.set m a).take n = l.take n := by
  apply List.ext_getElem?
  intro i
  simp only [List.getElem?_take]
  split
  · exact List.getElem?_set_ne (by omega)
  · rfl

theorem drop_set_self {α : Type*} (l : List α) (m : Nat) (a : α) (h : m < l.length) :
    (l.set m a).drop m = a :: l.drop (m + 1) := by
  rw [List.drop_set, if_neg (lt_irrefl m), Nat.sub_self,
      List.drop_eq_getElem_cons h, List.set_cons_zero]

theorem take_succ_getD {α : Type*} (l : List α) (n : Nat) (d : α) (h : n < l.length) :
    l.take (n + 1) = l.take n ++ [l.getD n d] := by
  rw [List.take_succ, List.getElem?_eq_getElem h, List.getD_eq_getElem l d h]
  rfl

/-! ## Characterization of the FAST shift loop -/

/-- If the new key is smaller than every key in slots `0..i`, the shift loop
moves each of those entries one slot to the right, leaves slot 0 as it was,
and reports `inserted == 0`. -/
theorem fastShift_all_lt (key : Key) (ptr : Ptr) (flush : Bool) :
    ∀ (i : Nat) (recs : List Entry), i + 1 < recs.length →
    (∀ t, t ≤ i → key < (recs.getD t defaultEntry).key) →
    (fastShift key ptr flush recs i).1
        = recs.getD 0 defaultEntry :: (recs.take (i + 1) ++ recs.drop (i + 2)) ∧
    (fastShift key ptr flush recs i).2.1 = false := by
  intro i
  induction i with
  | zero =>
    intro recs hlen hall
    rw [fastShift]
    rw [if_pos (hall 0 (Nat.le_refl 0))]
    refine ⟨?_, rfl⟩
    rw [List.set_eq_take_cons_drop _ (by omega : 1 < recs.length),
        take_succ_getD recs 0 defaultEntry (by omega)]
    simp
  | succ i ih =>
    intro recs hlen hall
    rw [fastShift]
    rw [if_pos (hall (i + 1) (Nat.le_refl _))]
    have hlen' : i + 1 < (recs.set (i + 2) (recs.getD (i + 1) defaultEntry)).length := by
      simp only [List.length_set]; omega
    have hall' : ∀ t, t ≤ i →
        key < ((recs.set (i + 2) (recs.getD (i + 1) defaultEntry)).getD t defaultEntry).key := by
      intro t ht
      rw [getD_set_ne _ _ _ _ _ (by omega)]
      exact hall t (by omega)
    obtain ⟨h1, h2⟩ := ih (recs.set (i + 2) (recs.getD (i + 1) defaultEntry)) hlen' hall'
    refine ⟨?_, h2⟩
    show (fastShift key ptr flush (recs.set (i + 2) (recs.getD (i + 1) defaultEntry)) i).1 = _
    rw [h1]
    rw [getD_set_ne _ _ _ _ _ (by omega : (0 : Nat) ≠ i + 2)]
    rw [take_set_of_le _ _ _ _ (by omega : i + 1 ≤ i + 2)]
    rw [drop_set_self _ _ _ (by omega : i + 2 < recs.length)]
    rw [take_succ_getD recs (i + 1) defaultEntry (by omega)]
    simp

/-- If the shift loop runs over slots `i, i-1, ..., j+1` shifting (the new key
is smaller than each of those keys) and stops at slot `j` (whose key is `≤`
the new key), it places `(key, ptr)` at slot `j+1`, having moved slots
`j+1..i` one to the right, and reports `inserted == 1`. -/
theorem fastShift_found (key : Key) (ptr : Ptr) (flush : Bool) :
    ∀ (i : Nat) (recs : List Entry) (j : Nat), j ≤ i → i + 1 < recs.length →
    ¬ key < (recs.getD j defaultEntry).key →
    (∀ t, j < t → t ≤ i → key < (recs.getD t defaultEntry).key) →
    (fastShift key ptr flush recs i).1
        = recs.take (j + 1) ++ ⟨key, ptr⟩ ::
            ((recs.take (i + 1)).drop (j + 1) ++ recs.drop (i + 2)) ∧
    (fastShift key ptr flush recs i).2.1 = true := by
  intro i
  induction i with
  | zero =>
    intro recs j hj hlen hkey _
    interval_cases j
    rw [fastShift]
    rw [if_neg hkey]
    refine ⟨?_, rfl⟩
    rw [List.set_eq_take_cons_drop _ (by omega : 1 < recs.length)]
    have : ((recs.take 1).drop 1) = [] := by
      apply List.drop_eq_nil_of_le
      simp
    rw [this]
    simp
  | succ i ih =>
    intro recs j hj hlen hkey hgt
    rw [fastShift]
    by_cases htop : j = i + 1
    · subst htop
      rw [if_neg hkey]
      refine ⟨?_, rfl⟩
      rw [List.set_eq_take_cons_drop _ (by omega : i + 2 < recs.length)]
      have : ((recs.take (i + 2)).drop (i + 2)) = [] := by
        apply List.drop_eq_nil_of_le
        simp
      rw [this]
      simp
    · have hji : j ≤ i := by omega
      rw [if_pos (hgt (i + 1) (by omega) (Nat.le_refl _))]
      have hlen' : i + 1 < (recs.set (i + 2) (recs.getD (i + 1) defaultEntry)).length := by
        simp only [List.length_set]; omega
      have hkey' : ¬ key <
          ((recs.set (i + 2) (recs.getD (i + 1) defaultEntry)).getD j defaultEntry).key := by
        rw [getD_set_ne _ _ _ _ _ (by omega)]; exact hkey
      have hgt' : ∀ t, j < t → t ≤ i →
          key < ((recs.set (i + 2) (recs.getD (i + 1) defaultEntry)).getD t defaultEntry).key := by
        intro t ht1 ht2
        rw [getD_set_ne _ _ _ _ _ (by omega)]
        exact hgt t ht1 (by omega)
      obtain ⟨h1, h2⟩ := ih (recs.set (i + 2) (recs.getD (i + 1) defaultEntry)) j hji hlen' hkey' hgt'
      refine ⟨?_, h2⟩
      show (fastShift key ptr flush (recs.set (i + 2) (recs.getD (i + 1) defaultEntry)) i).1 = _
      rw [h1]
      rw [take_set_of_le _ _ _ _ (by omega : j + 1 ≤ i + 2)]
      rw [take_set_of_le _ _ _ _ (by omega : i + 1 ≤ i + 2)]
      rw [drop_set_self _ _ _ (by omega : i + 2 < recs.length)]
      rw [take_succ_getD recs (i + 1) defaultEntry (by omega)]
      rw [List.drop_append_of_le_length (by simp [List.length_take]; omega)]
      simp

theorem take_set_comm {α : Type*} (l : List α) (m n : Nat) (a : α) (h : m < n) :
    (l.set m a).take n = (l.take n).set m a := by
  apply List.ext_getElem?
  intro i
  by_cases him : i = m
  · subst him
    by_cases hil : i < l.length
    · simp [List.getElem?_take, List.getElem?_set, hil, h, List.length_take]
    · simp [List.getElem?_take, List.getElem?_set, hil, h, List.length_take]
  · rw [List.getElem?_take]
    rw [List.getElem?_set_ne (Ne.symm him)]
    rw [List.getElem?_set_ne (Ne.symm him)]
    rw [List.getElem?_take]

theorem drop_set_of_lt {α : Type*} (l : List α) (m n : Nat) (a : α) (h : m < n) :
    (l.set m a).drop n = l.drop n := by
  rw [List.drop_set, if_pos h]

/-- A `takeWhile` whose first `n` elements satisfy the predicate and whose
`n`-th element (if any) fails it is exactly `take n`. -/
theorem takeWhile_eq_take_of {α : Type*} (pr : α → Bool) (d : α) :
    ∀ (l : List α) (n : Nat), n ≤ l.length →
    (∀ t, t < n → pr (l.getD t d) = true) →
    (n = l.length ∨ pr (l.getD n d) = false) →
    l.takeWhile pr = l.take n
  | l, 0, _, _, hend => by
    match l, hend with
    | [], _ => rfl
    | a :: l, Or.inr hfail =>
      simp only [List.getD_cons_zero] at hfail
      simp [List.takeWhile_cons, hfail]
  | a :: l, n + 1, hlen, hall, hend => by
    have ha : pr a = true := by
      have := hall 0 (Nat.succ_pos n)
      simpa using this
    rw [List.takeWhile_cons, if_pos ha, List.take_succ_cons]
    congr 1
    refine takeWhile_eq_take_of pr d l n (by simpa using hlen) (fun t ht => ?_) ?_
    · have := hall (t + 1) (by omega)
      simpa using this
    · rcases hend with h | h
      · left
        simpa using h
      · right
        simpa using h

/-! ## Characterization of `insert_key` and `remove_key` on the record array -/

/-- `insert_key` when the new key is smaller than every valid key: every valid
entry shifts one slot right, the new entry lands in slot 0, the null
terminator lands in slot `n+1`. -/
theorem insertKey_records_prepend (p : Page) (key : Key) (ptr : Ptr) (n : Nat)
    (flush ul : Bool) (hn : 1 ≤ n) (hlen : n + 1 < p.records.length)
    (hall : ∀ t, t < n → key < (p.records.getD t defaultEntry).key) :
    (insertKey p key ptr n flush ul).1.records
      = ⟨key, ptr⟩ :: (p.records.take n ++
          ⟨(p.records.getD (n + 1) defaultEntry).key, (p.records.getD n defaultEntry).ptr⟩
            :: p.records.drop (n + 2)) := by
  have hne : ¬ n = 0 := by omega
  unfold insertKey
  rw [if_neg hne]
  dsimp only
  set e : Entry :=
    ⟨(p.records.getD (n + 1) defaultEntry).key, (p.records.getD n defaultEntry).ptr⟩ with he
  have hlen' : (n - 1) + 1 < (p.records.set (n + 1) e).length := by
    simp only [List.length_set]; omega
  have hall' : ∀ t, t ≤ n - 1 →
      key < ((p.records.set (n + 1) e).getD t defaultEntry).key := by
    intro t ht
    rw [getD_set_ne _ _ _ _ _ (by omega)]
    exact hall t (by omega)
  obtain ⟨h1, h2⟩ := fastShift_all_lt key ptr flush (n - 1) (p.records.set (n + 1) e) hlen' hall'
  rw [h2, if_neg Bool.false_ne_true, h1]
  rw [getD_set_ne _ _ _ _ _ (by omega : (0 : Nat) ≠ n + 1)]
  rw [show n - 1 + 1 = n by omega, show n - 1 + 2 = n + 1 by omega]
  rw [take_set_of_le _ _ _ _ (by omega : n ≤ n + 1)]
  rw [drop_set_self _ _ _ (by omega : n + 1 < p.records.length)]
  rw [List.set_cons_zero]

/-- `insert_key` when the shift stops at slot `j` (the first slot from the top
whose key is `≤` the new key): slots `j+1..n-1` shift one right, the new entry
lands in slot `j+1`, the terminator lands in slot `n+1`. -/
theorem insertKey_records_found (p : Page) (key : Key) (ptr : Ptr) (n : Nat)
    (flush ul : Bool) (hn : 1 ≤ n) (hlen : n + 1 < p.records.length)
    (j : Nat) (hj : j < n)
    (hkey : ¬ key < (p.records.getD j defaultEntry).key)
    (hgt : ∀ t, j < t → t < n → key < (p.records.getD t defaultEntry).key) :
    (insertKey p key ptr n flush ul).1.records
      = p.records.take (j + 1) ++ ⟨key, ptr⟩ ::
          ((p.records.take n).drop (j + 1) ++
            ⟨(p.records.getD (n + 1) defaultEntry).key, (p.records.getD n defaultEntry).ptr⟩
              :: p.records.drop (n + 2)) := by
  have hne : ¬ n = 0 := by omega
  unfold insertKey
  rw [if_neg hne]
  dsimp only
  set e : Entry :=
    ⟨(p.records.getD (n + 1) defaultEntry).key, (p.records.getD n defaultEntry).ptr⟩ with he
  have hlen' : (n - 1) + 1 < (p.records.set (n + 1) e).length := by
    simp only [List.length_set]; omega
  have hkey' : ¬ key < ((p.records.set (n + 1) e).getD j defaultEntry).key := by
    rw [getD_set_ne _ _ _ _ _ (by omega)]
    exact hkey
  have hgt' : ∀ t, j < t → t ≤ n - 1 →
      key < ((p.records.set (n + 1) e).getD t defaultEntry).key := by
    intro t ht1 ht2
    rw [getD_set_ne _ _ _ _ _ (by omega)]
    exact hgt t ht1 (by omega)
  obtain ⟨h1, h2⟩ := fastShift_found key ptr flush (n - 1) (p.records.set (n + 1) e) j
    (by omega) hlen' hkey' hgt'
  rw [h2, if_pos rfl, h1]
  rw [show n - 1 + 1 = n by omega, show n - 1 + 2 = n + 1 by omega]
  rw [take_set_of_le _ _ _ _ (by omega : j + 1 ≤ n + 1)]
  rw [take_set_of_le _ _ _ _ (by omega : n ≤ n + 1)]
  rw [drop_set_self _ _ _ (by omega : n + 1 < p.records.length)]

theorem set_take_succ {α : Type*} (l : List α) (m : Nat) (a : α) (h : m < l.length) :
    (l.set m a).take (m + 1) = l.take m ++ [a] := by
  rw [take_set_comm _ _ _ _ (by omega : m < m + 1)]
  rw [List.set_eq_take_cons_drop a
    (by simp only [List.length_take]; omega : m < (l.take (m + 1)).length)]
  rw [List.take_take, List.drop_eq_nil_of_le (by simp only [List.length_take]; omega)]
  simp [Nat.min_def]

theorem take_drop_cons {α : Type*} (l : List α) (q n : Nat) (d : α)
    (hqn : q < n) (hnl : n ≤ l.length) :
    (l.take n).drop q = l.getD q d :: (l.take n).drop (q + 1) := by
  rw [List.drop_eq_getElem_cons (by simp only [List.length_take]; omega)]
  congr 1
  rw [List.getElem_take, List.getD_eq_getElem l d (by omega)]

/-- The fields of an `Entry` reassembled are the entry itself. -/
theorem entry_eta (e : Entry) : (⟨e.key, e.ptr⟩ : Entry) = e := rfl


/-- One `remove_key` loop iteration hitting the null terminator: the loop
exits. -/
theorem removeLoop_step_term (key : Key) (lm : Ptr) (recs : List Entry)
    (i f : Nat) (shift : Bool) (h : (recs.getD i defaultEntry).ptr = 0) :
    removeLoop key lm recs i shift (f + 1) = (recs, shift) := by
  rw [removeLoop, if_pos h]

/-- One `remove_key` loop iteration in the shift phase: the slot receives its
right neighbour and the loop advances. -/
theorem removeLoop_step_shift (key : Key) (lm : Ptr) (recs : List Entry)
    (i f : Nat) (h : (recs.getD i defaultEntry).ptr ≠ 0) :
    removeLoop key lm recs i true (f + 1)
      = removeLoop key lm (recs.set i (recs.getD (i + 1) defaultEntry)) (i + 1) true f := by
  rw [removeLoop, if_neg h]
  have hc : ¬ (¬ (true = true) ∧ (recs.getD i defaultEntry).key = key) :=
    fun hc => hc.1 rfl
  rw [if_neg hc, if_neg hc, if_pos rfl]

/-- One `remove_key` loop iteration finding the key: the transient
left-neighbour write into the slot is overwritten in the same iteration by
the shift `records[i] = records[i+1]`, and the loop advances in shift mode. -/
theorem removeLoop_step_found (key : Key) (lm : Ptr) (recs : List Entry)
    (i f : Nat) (hptr : (recs.getD i defaultEntry).ptr ≠ 0)
    (hkey : (recs.getD i defaultEntry).key = key) :
    removeLoop key lm recs i false (f + 1)
      = removeLoop key lm (recs.set i (recs.getD (i + 1) defaultEntry)) (i + 1) true f := by
  rw [removeLoop, if_neg hptr]
  have hc : ¬ (false = true) ∧ (recs.getD i defaultEntry).key = key :=
    ⟨Bool.false_ne_true, hkey⟩
  rw [if_pos hc, if_pos hc, if_pos rfl]
  rw [getD_set_ne _ _ _ _ _ (by omega)]
  simp only [entry_eta, List.set_set]

/-- One `remove_key` loop iteration scanning past a non-matching key. -/
theorem removeLoop_step_skip (key : Key) (lm : Ptr) (recs : List Entry)
    (i f : Nat) (hptr : (recs.getD i defaultEntry).ptr ≠ 0)
    (hkey : (recs.getD i defaultEntry).key ≠ key) :
    removeLoop key lm recs i false (f + 1) = removeLoop key lm recs (i + 1) false f := by
  rw [removeLoop, if_neg hptr]
  have hc : ¬ (¬ (false = true) ∧ (recs.getD i defaultEntry).key = key) :=
    fun hc => hkey hc.2
  rw [if_neg hc, if_neg hc, if_neg Bool.false_ne_true]

/-- The shift phase of `remove_key`'s loop: entering slot `i` in shift mode,
with slots `i..i+cnt-1` valid and the terminator at slot `i+cnt`, every slot
in `i..i+cnt-1` receives its right neighbour (the copied terminator ends up
in slot `i+cnt-1`) and the loop reports `shift == true`. -/
theorem removeLoop_shift (key : Key) (lm : Ptr) :
    ∀ (cnt : Nat) (recs : List Entry) (i fuel : Nat), cnt < fuel →
    i + cnt < recs.length →
    (∀ t, i ≤ t → t < i + cnt → (recs.getD t defaultEntry).ptr ≠ 0) →
    (recs.getD (i + cnt) defaultEntry).ptr = 0 →
    removeLoop key lm recs i true fuel
      = (recs.take i ++ ((recs.take (i + cnt + 1)).drop (i + 1) ++ recs.drop (i + cnt)),
         true)
  | 0, recs, i, fuel, hfuel, hlen, _, hterm => by
    obtain ⟨f, rfl⟩ : ∃ f, fuel = f + 1 := ⟨fuel - 1, by omega⟩
    rw [removeLoop_step_term key lm recs i f true (by simpa using hterm)]
    rw [List.drop_eq_nil_of_le (by simp only [List.length_take]; omega :
      (recs.take (i + 0 + 1)).length ≤ i + 1)]
    simp
  | cnt + 1, recs, i, fuel, hfuel, hlen, hvalid, hterm => by
    obtain ⟨f, rfl⟩ : ∃ f, fuel = f + 1 := ⟨fuel - 1, by omega⟩
    rw [removeLoop_step_shift key lm recs i f (hvalid i (Nat.le_refl i) (by omega))]
    rw [removeLoop_shift key lm cnt
      (recs.set i (recs.getD (i + 1) defaultEntry)) (i + 1) f
      (by omega)
      (by simp only [List.length_set]; omega)
      (fun t ht1 ht2 => by
        rw [getD_set_ne _ _ _ _ _ (by omega)]
        exact hvalid t (by omega) (by omega))
      (by
        rw [getD_set_ne _ _ _ _ _ (by omega)]
        rw [show i + 1 + cnt = i + (cnt + 1) by omega]
        exact hterm)]
    rw [set_take_succ _ _ _ (by omega)]
    rw [show i + 1 + cnt + 1 = i + (cnt + 1) + 1 by omega,
        show i + 1 + cnt = i + (cnt + 1) by omega]
    rw [take_set_comm _ _ _ _ (by omega : i < i + (cnt + 1) + 1)]
    rw [drop_set_of_lt _ _ _ _ (by omega : i < i + 2)]
    rw [drop_set_of_lt _ _ _ _ (by omega : i < i + (cnt + 1))]
    rw [take_drop_cons recs (i + 1) (i + (cnt + 1) + 1) defaultEntry
      (by omega) (by omega)]
    simp

/-- The search phase of `remove_key`'s loop: walking over `cnt` valid,
non-matching slots is a no-op. -/
theorem removeLoop_search (key : Key) (lm : Ptr) :
    ∀ (cnt : Nat) (recs : List Entry) (i fuel : Nat), cnt ≤ fuel →
    (∀ t, i ≤ t → t < i + cnt →
      (recs.getD t defaultEntry).ptr ≠ 0 ∧ (recs.getD t defaultEntry).key ≠ key) →
    removeLoop key lm recs i false fuel
      = removeLoop key lm recs (i + cnt) false (fuel - cnt)
  | 0, recs, i, fuel, _, _ => by simp
  | cnt + 1, recs, i, fuel, hfuel, hscan => by
    obtain ⟨f, rfl⟩ : ∃ f, fuel = f + 1 := ⟨fuel - 1, by omega⟩
    obtain ⟨hptr, hkey⟩ := hscan i (Nat.le_refl i) (by omega)
    rw [removeLoop_step_skip key lm recs i f hptr hkey]
    rw [removeLoop_search key lm cnt recs (i + 1) f (by omega)
      (fun t ht1 ht2 => hscan t (by omega) (by omega))]
    rw [show i + 1 + cnt = i + (cnt + 1) by omega,
        show f - cnt = f + 1 - (cnt + 1) by omega]

/-- `remove_key(key)` when no valid entry matches: the record array is
untouched and the call reports `false` ("not found", a no-op apart from the
switch-counter write). -/
theorem removeKey_not_found (p : Page) (key : Key) (n : Nat)
    (hn : n < p.records.length)
    (hvalid : ∀ t, t < n → (p.records.getD t defaultEntry).ptr ≠ 0)
    (hterm : (p.records.getD n defaultEntry).ptr = 0)
    (hkeys : ∀ t, t < n → (p.records.getD t defaultEntry).key ≠ key) :
    (removeKey p key).1.records = p.records ∧ (removeKey p key).2 = false := by
  unfold removeKey
  rw [removeLoop_search key p.hdr.leftmost_ptr n p.records 0 (p.records.length + 1)
    (by omega) (fun t ht1 ht2 => ⟨hvalid t (by omega), hkeys t (by omega)⟩)]
  rw [Nat.zero_add]
  obtain ⟨f, hf⟩ : ∃ f, p.records.length + 1 - n = f + 1 := ⟨p.records.length - n, by omega⟩
  rw [hf]
  rw [removeLoop_step_term key p.hdr.leftmost_ptr p.records n f false (by simpa using hterm)]
  exact ⟨rfl, rfl⟩

/-- `remove_key(key)` when slot `q` holds the first matching valid entry:
slots `q..n-1` each receive their right neighbour (erasing the match and
pulling the terminator into slot `n-1`) and the call reports `true`. -/
theorem removeKey_found (p : Page) (key : Key) (n q : Nat)
    (hn : n < p.records.length) (hq : q < n)
    (hvalid : ∀ t, t < n → (p.records.getD t defaultEntry).ptr ≠ 0)
    (hterm : (p.records.getD n defaultEntry).ptr = 0)
    (hfirst : ∀ t, t < q → (p.records.getD t defaultEntry).key ≠ key)
    (hmatch : (p.records.getD q defaultEntry).key = key) :
    (removeKey p key).1.records
      = p.records.take q ++ ((p.records.take (n + 1)).drop (q + 1) ++ p.records.drop n) ∧
    (removeKey p key).2 = true := by
  unfold removeKey
  rw [removeLoop_search key p.hdr.leftmost_ptr q p.records 0 (p.records.length + 1)
    (by omega) (fun t ht1 ht2 => ⟨hvalid t (by omega), hfirst t (by omega)⟩)]
  rw [Nat.zero_add]
  obtain ⟨f, hf⟩ : ∃ f, p.records.length + 1 - q = f + 1 := ⟨p.records.length - q, by omega⟩
  rw [hf]
  rw [removeLoop_step_found key p.hdr.leftmost_ptr p.records q f
    (by simpa using hvalid q hq) (by simpa using hmatch)]
  rw [removeLoop_shift key p.hdr.leftmost_ptr (n - (q + 1))
    (p.records.set q (p.records.getD (q + 1) defaultEntry)) (q + 1) f
    (by omega)
    (by simp only [List.length_set]; omega)
    (fun t ht1 ht2 => by
      rw [getD_set_ne _ _ _ _ _ (by omega)]
      exact hvalid t (by omega))
    (by
      rw [getD_set_ne _ _ _ _ _ (by omega)]
      rw [show q + 1 + (n - (q + 1)) = n by omega]
      exact hterm)]
  rw [set_take_succ _ _ _ (by omega)]
  rw [show q + 1 + (n - (q + 1)) + 1 = n + 1 by omega,
      show q + 1 + (n - (q + 1)) = n by omega]
  rw [take_set_comm _ _ _ _ (by omega : q < n + 1)]
  rw [drop_set_of_lt _ _ _ _ (by omega : q < q + 2)]
  rw [drop_set_of_lt _ _ _ _ (by omega : q < n)]
  rw [take_drop_cons p.records (q + 1) (n + 1) defaultEntry (by omega) (by omega)]
  constructor
  · simp
  · rfl

/-! ## Facts about the valid-entry prefix -/

/-- A `takeWhile` is the `take` of its own length. -/
theorem takeWhile_eq_take_length {α : Type*} (pr : α → Bool) :
    ∀ (l : List α), l.takeWhile pr = l.take (l.takeWhile pr).length
  | [] => rfl
  | a :: l => by
    rw [List.takeWhile_cons]
    split
    · simp only [List.length_cons, List.take_succ_cons]
      rw [← takeWhile_eq_take_length pr l]
    · simp

/-- The slot right after a proper `takeWhile` fails the predicate. -/
theorem takeWhile_term {α : Type*} (pr : α → Bool) (d : α) :
    ∀ (l : List α), (l.takeWhile pr).length < l.length →
    pr (l.getD (l.takeWhile pr).length d) = false
  | [], h => by simp at h
  | a :: l, h => by
    rw [List.takeWhile_cons] at h ⊢
    by_cases hp : pr a = true
    · rw [if_pos hp] at h ⊢
      simp only [List.length_cons, List.getD_cons_succ]
      exact takeWhile_term pr d l (by simpa using h)
    · rw [if_neg hp] at h ⊢
      simp only [List.length_nil, List.getD_cons_zero]
      exact Bool.eq_false_iff.mpr hp

/-- The valid prefix is literally `records.take (validEntries p).length`. -/
theorem validEntries_eq_take_length (p : Page) :
    validEntries p = p.records.take (validEntries p).length :=
  takeWhile_eq_take_length _ p.records

/-- `validPrefix`-level restatement of `validEntries_eq_take_length`. -/
theorem validPrefix_eq_take_length (l : List Entry) :
    validPrefix l = l.take (validPrefix l).length :=
  takeWhile_eq_take_length _ l

/-- The valid prefix never exceeds the record array. -/
theorem validEntries_length_le (p : Page) :
    (validEntries p).length ≤ p.records.length := by
  have h := congrArg List.length (validEntries_eq_take_length p)
  rw [List.length_take] at h
  omega

/-- Slots inside the valid prefix agree with the record array. -/
theorem validEntries_getD (p : Page) (t : Nat) (ht : t < (validEntries p).length) :
    (validEntries p).getD t defaultEntry = p.records.getD t defaultEntry := by
  conv_lhs => rw [validEntries_eq_take_length p]
  rw [List.getD_eq_getElem?_getD, List.getElem?_take, if_pos ht,
      ← List.getD_eq_getElem?_getD]

/-- Every slot of the valid prefix holds a non-null value handle. -/
theorem validEntries_ptr_ne (p : Page) (t : Nat) (ht : t < (validEntries p).length) :
    (p.records.getD t defaultEntry).ptr ≠ 0 := by
  rw [← validEntries_getD p t ht]
  have hmem : (validEntries p).getD t defaultEntry ∈ validEntries p := by
    rw [List.getD_eq_getElem _ _ ht]
    exact List.getElem_mem ht
  unfold validEntries validPrefix at hmem ⊢
  have := List.mem_takeWhile_imp hmem
  simpa using this

/-- The slot after a proper valid prefix holds the null terminator. -/
theorem validEntries_term (p : Page)
    (h : (validEntries p).length < p.records.length) :
    (p.records.getD (validEntries p).length defaultEntry).ptr = 0 := by
  unfold validEntries validPrefix at h ⊢
  have := takeWhile_term _ defaultEntry p.records h
  simpa using this

/-- `keySorted` as a `Pairwise` on the entries themselves. -/
theorem keySorted_iff_pairwise (l : List Entry) :
    keySorted l ↔ l.Pairwise (fun a b => a.key ≤ b.key) := by
  unfold keySorted entryKeys List.Sorted
  exact List.pairwise_map

/-- `validPrefix` of a cons with a non-null handle. -/
theorem validPrefix_cons_valid (e : Entry) (l : List Entry) (he : e.ptr ≠ 0) :
    validPrefix (e :: l) = e :: validPrefix l := by
  unfold validPrefix
  rw [List.takeWhile_cons, if_pos (by simpa using he)]

/-- `validPrefix` of a cons with a null handle. -/
theorem validPrefix_cons_null (e : Entry) (l : List Entry) (he : e.ptr = 0) :
    validPrefix (e :: l) = [] := by
  unfold validPrefix
  rw [List.takeWhile_cons, if_neg (by simpa using he)]

/-- `validPrefix` walks through an all-valid front list. -/
theorem validPrefix_append_of_full (l1 l2 : List Entry)
    (hfull : ∀ x ∈ l1, x.ptr ≠ 0) :
    validPrefix (l1 ++ l2) = l1 ++ validPrefix l2 := by
  unfold validPrefix
  have hself : List.takeWhile (fun e => decide (e.ptr ≠ 0)) l1 = l1 :=
    List.takeWhile_eq_self_iff.mpr (fun x hx => by simpa using hfull x hx)
  rw [List.takeWhile_append]
  rw [if_pos (by rw [hself])]

/-- Every element of `p.records.take k`, `k` within the valid prefix, has a
non-null handle. -/
theorem mem_take_valid_ptr_ne (p : Page) (k : Nat)
    (hk : k ≤ (validEntries p).length) :
    ∀ x ∈ p.records.take k, x.ptr ≠ 0 := by
  intro x hx
  obtain ⟨i, hi, rfl⟩ := List.mem_take_iff_getElem.mp hx
  have hin : i < (validEntries p).length := by
    simp only [lt_min_iff] at hi
    omega
  have := validEntries_ptr_ne p i hin
  rwa [List.getD_eq_getElem p.records defaultEntry
    (by have := validEntries_length_le p; omega)] at this

/-- `validPrefix_cons_null` specialized to an entry literal whose pointer
component is the null terminator. -/
theorem validPrefix_cons_mk_null (k : Key) (pz : Ptr) (l : List Entry)
    (hz : pz = 0) : validPrefix (⟨k, pz⟩ :: l) = [] :=
  validPrefix_cons_null _ _ hz

/-- Valid entries after an `insert_key` whose key precedes every valid key:
the new entry is prepended. -/
theorem validEntries_insert_all_lt (p : Page) (key : Key) (ptr : Ptr)
    (flush ul : Bool) (hn : 1 ≤ (validEntries p).length)
    (hlen : (validEntries p).length + 1 < p.records.length) (hptr : ptr ≠ 0)
    (hall : ∀ t, t < (validEntries p).length →
      key < (p.records.getD t defaultEntry).key) :
    validEntries (insertKey p key ptr (validEntries p).length flush ul).1
      = ⟨key, ptr⟩ :: validEntries p := by
  have hL := validEntries_length_le p
  show validPrefix _ = _
  rw [insertKey_records_prepend p key ptr _ flush ul hn hlen hall]
  rw [validPrefix_cons_valid _ _ hptr]
  rw [validPrefix_append_of_full _ _ (mem_take_valid_ptr_ne p _ (Nat.le_refl _))]
  rw [validPrefix_cons_mk_null _ _ _ (validEntries_term p (by omega))]
  rw [List.append_nil, ← validEntries_eq_take_length]

/-- Valid entries after an `insert_key` that stops at slot `j`: the new entry
is placed right after slot `j`. -/
theorem validEntries_insert_found (p : Page) (key : Key) (ptr : Ptr)
    (flush ul : Bool) (hn : 1 ≤ (validEntries p).length)
    (hlen : (validEntries p).length + 1 < p.records.length) (hptr : ptr ≠ 0)
    (j : Nat) (hj : j < (validEntries p).length)
    (hkey : ¬ key < (p.records.getD j defaultEntry).key)
    (hgt : ∀ t, j < t → t < (validEntries p).length →
      key < (p.records.getD t defaultEntry).key) :
    validEntries (insertKey p key ptr (validEntries p).length flush ul).1
      = (validEntries p).take (j + 1) ++ ⟨key, ptr⟩ :: (validEntries p).drop (j + 1) := by
  have hL := validEntries_length_le p
  show validPrefix _ = _
  rw [insertKey_records_found p key ptr _ flush ul hn hlen j hj hkey hgt]
  rw [validPrefix_append_of_full _ _ (mem_take_valid_ptr_ne p (j + 1) (by omega))]
  rw [validPrefix_cons_valid _ _ hptr]
  rw [validPrefix_append_of_full _ _ (fun x hx =>
    mem_take_valid_ptr_ne p _ (Nat.le_refl _) x ((List.drop_sublist _ _).subset hx))]
  rw [validPrefix_cons_mk_null _ _ _ (validEntries_term p (by omega))]
  rw [List.append_nil]
  conv_rhs => rw [validEntries_eq_take_length p]
  rw [List.take_take, show min (j + 1) (validEntries p).length = j + 1 from by omega]

/-- Valid entries after a `remove_key` that found its key at slot `q`: the
entry at `q` is erased. -/
theorem validEntries_remove_found (p : Page) (key : Key) (q : Nat)
    (hn : (validEntries p).length < p.records.length)
    (hq : q < (validEntries p).length)
    (hfirst : ∀ t, t < q → (p.records.getD t defaultEntry).key ≠ key)
    (hmatch : (p.records.getD q defaultEntry).key = key) :
    validEntries (removeKey p key).1 = (validEntries p).eraseIdx q ∧
    (removeKey p key).2 = true := by
  have hL := validEntries_length_le p
  obtain ⟨h1, h2⟩ := removeKey_found p key (validEntries p).length q hn hq
    (fun t ht => validEntries_ptr_ne p t ht) (validEntries_term p hn) hfirst hmatch
  refine ⟨?_, h2⟩
  show validPrefix _ = _
  rw [h1]
  rw [take_succ_getD p.records (validEntries p).length defaultEntry hn]
  rw [List.drop_append_of_le_length (by simp only [List.length_take]; omega)]
  rw [List.append_assoc, List.singleton_append]
  rw [validPrefix_append_of_full _ _ (mem_take_valid_ptr_ne p q (by omega))]
  rw [validPrefix_append_of_full _ _ (fun x hx =>
    mem_take_valid_ptr_ne p _ (Nat.le_refl _) x ((List.drop_sublist _ _).subset hx))]
  rw [validPrefix_cons_null _ _ (validEntries_term p hn)]
  rw [List.append_nil, List.eraseIdx_eq_take_drop_succ]
  conv_rhs => rw [validEntries_eq_take_length p]
  rw [List.take_take, show min q (validEntries p).length = q from by omega]

/-- Valid entries after a `remove_key` that found nothing: unchanged. -/
theorem validEntries_remove_not_found (p : Page) (key : Key)
    (hn : (validEntries p).length < p.records.length)
    (hkeys : ∀ t, t < (validEntries p).length →
      (p.records.getD t defaultEntry).key ≠ key) :
    validEntries (removeKey p key).1 = validEntries p ∧
    (removeKey p key).2 = false := by
  obtain ⟨h1, h2⟩ := removeKey_not_found p key (validEntries p).length hn
    (fun t ht => validEntries_ptr_ne p t ht) (validEntries_term p hn) hkeys
  refine ⟨?_, h2⟩
  show validPrefix _ = _
  rw [h1]
  rfl

/-- Key monotonicity along a sorted entry list, by slot index. -/
theorem keySorted_getD_le (l : List Entry) (hs : keySorted l) (s t : Nat)
    (hst : s ≤ t) (ht : t < l.length) :
    (l.getD s defaultEntry).key ≤ (l.getD t defaultEntry).key := by
  rcases Nat.eq_or_lt_of_le hst with rfl | hlt
  · exact le_refl _
  · have hp := (keySorted_iff_pairwise l).mp hs
    have := List.pairwise_iff_getElem.mp hp s t (by omega) ht hlt
    rw [List.getD_eq_getElem _ _ (by omega), List.getD_eq_getElem _ _ ht]
    exact this

/-- Strict key monotonicity along a strictly sorted entry list. -/
theorem strictSorted_getD_lt (l : List Entry)
    (hs : (entryKeys l).Sorted (· < ·)) (s t : Nat)
    (hst : s < t) (ht : t < l.length) :
    (l.getD s defaultEntry).key < (l.getD t defaultEntry).key := by
  have hp : l.Pairwise (fun a b => a.key < b.key) := by
    have := hs
    unfold entryKeys List.Sorted at this
    exact List.pairwise_map.mp this
  have := List.pairwise_iff_getElem.mp hp s t (by omega) ht hst
  rw [List.getD_eq_getElem _ _ (by omega), List.getD_eq_getElem _ _ ht]
  exact this

/-- The record array after `insert_key` into an empty node (`*num_entries == 0`):
the new entry in slot 0, the null terminator in slot 1. -/
theorem insertKey_records_empty (p : Page) (key : Key) (ptr : Ptr)
    (flush ul : Bool) (hlen : 2 ≤ p.records.length) :
    (insertKey p key ptr 0 flush ul).1.records
      = ⟨key, ptr⟩ :: ⟨(p.records.getD 1 defaultEntry).key, 0⟩ :: p.records.drop 2 := by
  unfold insertKey
  rw [if_pos rfl]
  dsimp only
  rw [List.set_eq_take_cons_drop _ (by omega : 0 < p.records.length)]
  rw [List.take_zero, List.nil_append, List.set_cons_succ]
  rw [List.set_eq_take_cons_drop _ (by simp only [List.length_drop]; omega :
    0 < (p.records.drop 1).length)]
  rw [List.take_zero, List.nil_append, List.drop_drop]

/-- Valid entries after `insert_key` into an empty node: the singleton. -/
theorem validEntries_insert_empty (p : Page) (key : Key) (ptr : Ptr)
    (flush ul : Bool) (hlen : 2 ≤ p.records.length) (hptr : ptr ≠ 0) :
    validEntries (insertKey p key ptr 0 flush ul).1 = [⟨key, ptr⟩] := by
  show validPrefix _ = _
  rw [insertKey_records_empty p key ptr flush ul hlen]
  rw [validPrefix_cons_valid _ _ hptr]
  rw [validPrefix_cons_mk_null _ _ _ rfl]

/-- C7: on a node whose valid entries are key-sorted ascending, a completed
`insert_key` (called, as every call site does, with `*num_entries` equal to
the valid-entry count, on a node with room for the shift) and a completed
`remove_key` both leave the valid entries key-sorted ascending. -/
theorem c7_sorted_preserved (p : Page) (key key' : Key) (ptr : Ptr) :
    (p.records.length = cardinality → ptr ≠ 0 →
      (validEntries p).length + 1 < cardinality →
      keySorted (validEntries p) →
      keySorted (validEntries (insertKey p key ptr (validEntries p).length true true).1)) ∧
    (p.records.length = cardinality →
      (validEntries p).length < cardinality →
      keySorted (validEntries p) →
      keySorted (validEntries (removeKey p key').1)) := by
  have hcard : cardinality = 29 := rfl
  constructor
  · intro hlen hptr hroom hs
    by_cases hn0 : (validEntries p).length = 0
    · rw [hn0, validEntries_insert_empty p key ptr true true (by omega) hptr]
      rw [keySorted_iff_pairwise]
      simp
    · by_cases hall : ∀ t, t < (validEntries p).length →
          key < (p.records.getD t defaultEntry).key
      · rw [validEntries_insert_all_lt p key ptr true true (by omega) (by omega) hptr hall]
        rw [keySorted_iff_pairwise] at hs ⊢
        rw [List.pairwise_cons]
        refine ⟨?_, hs⟩
        intro b hb
        obtain ⟨t, ht, rfl⟩ := List.mem_iff_getElem.mp hb
        have h1 := hall t (by omega)
        rw [← validEntries_getD p t (by omega), List.getD_eq_getElem _ _ ht] at h1
        exact le_of_lt h1
      · push_neg at hall
        obtain ⟨t0, ht0, ht0k⟩ := hall
        have hn1 : 1 ≤ (validEntries p).length := Nat.one_le_iff_ne_zero.mpr hn0
        have hex2 : ∃ j, j ≤ (validEntries p).length - 1 ∧
            (p.records.getD j defaultEntry).key ≤ key ∧
            ∀ t, j < t → t < (validEntries p).length →
              key < (p.records.getD t defaultEntry).key := by
          refine ⟨Nat.findGreatest (fun t => (p.records.getD t defaultEntry).key ≤ key)
            ((validEntries p).length - 1), Nat.findGreatest_le _,
            Nat.findGreatest_spec
              (P := fun t => (p.records.getD t defaultEntry).key ≤ key)
              (by omega : t0 ≤ (validEntries p).length - 1) ht0k, ?_⟩
          intro t ht1 ht2
          by_cases htn : t ≤ (validEntries p).length - 1
          · have hnP := Nat.findGreatest_is_greatest ht1 htn
            simp only [not_le] at hnP
            exact hnP
          · omega
        obtain ⟨j, hjle, hPj, hgt⟩ := hex2
        have hjn : j < (validEntries p).length := by omega
        have hdropkey : ∀ b ∈ (validEntries p).drop (j + 1), key ≤ b.key := by
          intro b hb
          obtain ⟨s, hsb, rfl⟩ := List.mem_iff_getElem.mp hb
          rw [List.getElem_drop]
          have hidx : j + 1 + s < (validEntries p).length := by
            simp only [List.length_drop] at hsb
            omega
          have h1 := hgt (j + 1 + s) (by omega) hidx
          rw [← validEntries_getD p _ hidx,
              List.getD_eq_getElem _ _ (by omega : j + 1 + s < (validEntries p).length)] at h1
          exact le_of_lt h1
        have harg1 : 1 ≤ (validEntries p).length := hn1
        have harg2 : (validEntries p).length + 1 < p.records.length := by omega
        have harg3 : ¬ key < (p.records.getD j defaultEntry).key := not_lt.mpr hPj
        rw [validEntries_insert_found p key ptr true true harg1 harg2 hptr
          j hjn harg3 hgt]
        rw [keySorted_iff_pairwise] at hs ⊢
        rw [List.pairwise_append]
        refine ⟨hs.sublist (List.take_sublist _ _), ?_, ?_⟩
        · rw [List.pairwise_cons]
          exact ⟨hdropkey, hs.sublist (List.drop_sublist _ _)⟩
        · intro a ha b hb
          obtain ⟨s, hsa, rfl⟩ := List.mem_iff_getElem.mp ha
          have hsa' : s < j + 1 ∧ s < (validEntries p).length := by
            simpa only [List.length_take, lt_min_iff] using hsa
          have hstep1 : ((validEntries p).take (j + 1))[s].key ≤ key := by
            rw [List.getElem_take]
            have h1 : ((validEntries p).getD s defaultEntry).key
                ≤ ((validEntries p).getD j defaultEntry).key :=
              keySorted_getD_le (validEntries p)
                ((keySorted_iff_pairwise _).mpr hs) s j (by omega) hjn
            rw [validEntries_getD p j hjn] at h1
            rw [List.getD_eq_getElem _ _ hsa'.2] at h1
            exact le_trans h1 hPj
          rcases List.mem_cons.mp hb with rfl | hbd
          · exact hstep1
          · exact le_trans hstep1 (hdropkey b hbd)
  · intro hlen hnfull hs
    by_cases hex : ∃ q, q < (validEntries p).length ∧
        (p.records.getD q defaultEntry).key = key'
    · have hq := Nat.find_spec hex
      have hfirst : ∀ t, t < Nat.find hex →
          (p.records.getD t defaultEntry).key ≠ key' := by
        intro t ht hteq
        exact Nat.find_min hex ht ⟨by omega, hteq⟩
      obtain ⟨hval, _⟩ := validEntries_remove_found p key' (Nat.find hex)
        (by omega) hq.1 hfirst hq.2
      rw [hval]
      rw [keySorted_iff_pairwise] at hs ⊢
      exact hs.sublist (List.eraseIdx_sublist _ _)
    · push_neg at hex
      obtain ⟨hval, _⟩ := validEntries_remove_not_found p key' (by omega) hex
      rw [hval]
      exact hs

/-- Closed witness for `c7_sorted_preserved`: the fresh leaf (whose valid
prefix is empty, hence sorted), inserting `(5, 700)` and removing key 5. -/
theorem c7_sorted_preserved_witness :
    keySorted (validEntries (insertKey (pageNew 0 0) 5 700
      (validEntries (pageNew 0 0)).length true true).1) ∧
    keySorted (validEntries (removeKey (pageNew 0 0) 5).1) :=
  ⟨(c7_sorted_preserved (pageNew 0 0) 5 5 700).1 (by decide) (by decide)
      (by decide) (by rw [keySorted_iff_pairwise]; decide),
   (c7_sorted_preserved (pageNew 0 0) 5 5 700).2 (by decide) (by decide)
      (by rw [keySorted_iff_pairwise]; decide)⟩

/-- C9: inserting a key that is already present in the node appends a second
entry with that key immediately to the right of the existing equal-key entry
(the shift loop stops at the first slot whose key is `≤` the new key, i.e. at
the matching entry, and places the new entry in the next slot).  The existing
entry is not updated, and both entries lie in the valid prefix afterwards. -/
theorem c9_duplicate_insert_appends_right (p : Page) (key : Key) (ptr : Ptr)
    (j : Nat) (hlen : p.records.length = cardinality) (hptr : ptr ≠ 0)
    (hroom : (validEntries p).length + 1 < cardinality)
    (hs : (entryKeys (validEntries p)).Sorted (· < ·))
    (hj : j < (validEntries p).length)
    (hjkey : ((validEntries p).getD j defaultEntry).key = key) :
    validEntries (insertKey p key ptr (validEntries p).length true true).1
      = (validEntries p).take (j + 1) ++ ⟨key, ptr⟩ :: (validEntries p).drop (j + 1) ∧
    (validEntries (insertKey p key ptr (validEntries p).length true true).1).getD j
        defaultEntry
      = (validEntries p).getD j defaultEntry ∧
    (validEntries (insertKey p key ptr (validEntries p).length true true).1).getD (j + 1)
        defaultEntry
      = ⟨key, ptr⟩ ∧
    (validEntries (insertKey p key ptr (validEntries p).length true true).1).length
      = (validEntries p).length + 1 := by
  have hcard : cardinality = 29 := rfl
  have hkeyr : (p.records.getD j defaultEntry).key = key := by
    rw [← validEntries_getD p j hj]
    exact hjkey
  have hkey : ¬ key < (p.records.getD j defaultEntry).key := by
    rw [hkeyr]
    exact lt_irrefl key
  have hgt : ∀ t, j < t → t < (validEntries p).length →
      key < (p.records.getD t defaultEntry).key := by
    intro t ht1 ht2
    have h1 := strictSorted_getD_lt (validEntries p) hs j t ht1 (by omega)
    rw [validEntries_getD p j hj, validEntries_getD p t ht2, hkeyr] at h1
    exact h1
  have hmain := validEntries_insert_found p key ptr true true (by omega) (by omega)
    hptr j hj hkey hgt
  refine ⟨hmain, ?_, ?_, ?_⟩
  · rw [hmain, List.getD_eq_getElem?_getD, List.getElem?_append]
    rw [if_pos (by simp only [List.length_take]; omega)]
    rw [List.getElem?_take, if_pos (by omega)]
    rw [← List.getD_eq_getElem?_getD]
  · rw [hmain, List.getD_eq_getElem?_getD,
        List.getElem?_append_right (by simp only [List.length_take]; omega)]
    simp only [List.length_take]
    rw [show j + 1 - min (j + 1) (validEntries p).length = 0 from by omega]
    simp
  · rw [hmain]
    simp only [List.length_append, List.length_take, List.length_cons, List.length_drop]
    omega

/-- Closed witness for `c9_duplicate_insert_appends_right`: a node holding the
single entry `(5, 700)`, re-inserting key 5 with handle 900. -/
theorem c9_duplicate_insert_appends_right_witness :
    validEntries (insertKey (insertKey (pageNew 0 0) 5 700 0 true true).1 5 900
        (validEntries (insertKey (pageNew 0 0) 5 700 0 true true).1).length true true).1
      = (validEntries (insertKey (pageNew 0 0) 5 700 0 true true).1).take 1 ++ ⟨5, 900⟩ ::
          (validEntries (insertKey (pageNew 0 0) 5 700 0 true true).1).drop 1 ∧
    (validEntries (insertKey (insertKey (pageNew 0 0) 5 700 0 true true).1 5 900
        (validEntries (insertKey (pageNew 0 0) 5 700 0 true true).1).length true true).1).getD 0
        defaultEntry
      = (validEntries (insertKey (pageNew 0 0) 5 700 0 true true).1).getD 0 defaultEntry ∧
    (validEntries (insertKey (insertKey (pageNew 0 0) 5 700 0 true true).1 5 900
        (validEntries (insertKey (pageNew 0 0) 5 700 0 true true).1).length true true).1).getD 1
        defaultEntry
      = ⟨5, 900⟩ ∧
    (validEntries (insertKey (insertKey (pageNew 0 0) 5 700 0 true true).1 5 900
        (validEntries (insertKey (pageNew 0 0) 5 700 0 true true).1).length true true).1).length
      = (validEntries (insertKey (pageNew 0 0) 5 700 0 true true).1).length + 1 :=
  c9_duplicate_insert_appends_right (insertKey (pageNew 0 0) 5 700 0 true true).1 5 900 0
    (by decide) (by decide) (by decide)
    (by unfold entryKeys List.Sorted; decide) (by decide) (by decide)

/-! ## The FAIR split's persist-ordering trace (C4 amended, C8) -/

/-- The C split expression `(int) ceil(num_entries/2)` is plain integer
division: the inner division truncates and `ceil` of an integral value is the
identity. -/
theorem storeSplitPos_eq_div (n : Nat) : storeSplitPos n = n / 2 := by
  unfold storeSplitPos
  exact Nat.ceil_natCast _

/-- A `flush = false` shift loop emits no flush events. -/
theorem fastShift_no_flush_evs (key : Key) (ptr : Ptr) :
    ∀ (recs : List Entry) (i : Nat), (fastShift key ptr false recs i).2.2 = []
  | recs, 0 => by
    rw [fastShift]
    split <;> simp
  | recs, i + 1 => by
    rw [fastShift]
    split
    · simp [fastShift_no_flush_evs key ptr _ i]
    · simp

/-- A `flush = false` `insert_key` emits no flush events (every `clflush` in
it is guarded by the `flush` argument). -/
theorem insertKey_no_flush_evs (p : Page) (key : Key) (ptr : Ptr) (n : Nat)
    (ul : Bool) : (insertKey p key ptr n false ul).2.2 = [] := by
  unfold insertKey
  by_cases hn : n = 0
  · simp [hn]
  · simp [hn, fastShift_no_flush_evs]

/-- The split's migration loop (`insert_key(..., false)` calls) emits no
events. -/
theorem migrateList_no_evs (src : List Entry) (idxs : List Nat) (pg : Page)
    (cnt : Nat) : (migrateList src idxs pg cnt).2.2 = [] := by
  induction idxs generalizing pg cnt with
  | nil => rfl
  | cons i rest ih =>
    unfold migrateList
    simp [insertKey_no_flush_evs, ih]


/-- The split's migration emits no events (all its `insert_key` calls pass
`flush = false`). -/
theorem splitMigrate_no_evs (p : Page) (m num_entries : Nat) :
    (splitMigrate p m num_entries).2.2 = [] := by
  unfold splitMigrate
  split <;> simp [migrateList_no_evs]

/-- The split key returned by the split tail is `records[m].key` at
`m = storeSplitPos num_entries`. -/
theorem storeSplitStep_splitKey (bt : BTree) (pid : Ptr) (p : Page) (key : Key)
    (right : Ptr) : (storeSplitStep bt pid p key right).2
      = (p.records.getD (storeSplitPos (pageCount p)) defaultEntry).key := rfl

/-- The split tail's event trace starts with exactly the five persist events
of the source, in source order: flush the sibling wholesale, write
`hdr.sibling_ptr`, flush the header, flush the nulled `records[m]`, flush
`last_index`; everything after (`a`) is the pending key's own insert. -/
theorem storeSplitStep_trace (bt : BTree) (pid : Ptr) (p : Page) (key : Key)
    (right : Ptr) :
    ∃ a, (storeSplitStep bt pid p key right).1.2.2
      = [Ev.flushPage (bt.heap.length + 1), Ev.writeSibling pid (bt.heap.length + 1),
         Ev.flushHeader pid, Ev.flushSplitEntry pid (storeSplitPos (pageCount p)),
         Ev.flushLastIndex pid] ++ a := by
  simp only [storeSplitStep, splitMigrate_no_evs, List.nil_append]
  exact ⟨_, rfl⟩

/-- Event trace of a non-root FAIR split as `exec` runs it: the five persist
events of the split tail come first and in source order, then the pending
key's own insert (`a`), then the hand-off of the split key to the parent
level, then whatever the parent-level insertion emits (`b`). -/
theorem storeSplitTrace (bt : BTree) (pid : Ptr) (p : Page) (key : Key)
    (right : Ptr) (flush : Bool) (inv : Ptr) (f : Nat)
    (hlook : lookupPage bt.heap pid = some p)
    (hdel : p.hdr.is_deleted = false)
    (hsib : p.hdr.sibling_ptr = 0)
    (hfull : ¬ pageCount p < cardinality - 1)
    (hroot : bt.root ≠ pid) :
    ∃ a b, (exec (f + 1) bt (Call.store pid key right flush inv)).2.2
      = [Ev.flushPage (bt.heap.length + 1), Ev.writeSibling pid (bt.heap.length + 1),
         Ev.flushHeader pid, Ev.flushSplitEntry pid (storeSplitPos (pageCount p)),
         Ev.flushLastIndex pid]
        ++ a
        ++ [Ev.parentInsert ((p.records.getD (storeSplitPos (pageCount p)) defaultEntry).key)
              (bt.heap.length + 1)]
        ++ b := by
  obtain ⟨a, ha⟩ := storeSplitStep_trace bt pid p key right
  simp only [exec, hlook, hdel, hsib, Bool.false_eq_true, if_false, ne_eq,
    not_true_eq_false, false_and, if_neg hfull, if_neg hroot]
  refine ⟨a,
    (exec f { heap := (storeSplitStep bt pid p key right).1.1, root := bt.root,
              height := bt.height }
        (Call.insertInternal (storeSplitStep bt pid p key right).2
          (bt.heap.length + 1) (p.hdr.level + 1))).2.2, ?_⟩
  rw [ha, storeSplitStep_splitKey]

/-! ## A concrete non-root split -/

/-- A full leaf (`cardinality - 1 = 28` valid entries, keys `1..28`, handles
`1001..1028`), the state in which the next `store` takes the FAIR-split
branch. -/
def c48leaf : Page :=
  { hdr := { leftmost_ptr := 0, sibling_ptr := 0, level := 0,
             switch_counter := 0, is_deleted := false, last_index := 27,
             highest := 0 }
    records := (List.range' 1 28).map (fun k => (⟨Int.ofNat k, 1000 + k⟩ : Entry))
      ++ [defaultEntry] }

/-- A two-page tree: the full leaf (page 1) under an internal root
(page 2), so the split below the root must hand its split key up. -/
def c48tree : BTree :=
  { heap := [c48leaf, pageNewRoot 1 29 0 1 0], root := 2, height := 2 }

/-- C8: during a FAIR split of node `N` (page `pid`) into new sibling `S`
(page id `heap.length + 1`), `S` — migrated entries and `S.sibling :=
N.sibling` included — is persisted wholesale by one whole-node flush
strictly before `N.sibling` is redirected to `S` and `N`'s header persisted,
and the parent level is told (`parentInsert`) only after this linking: the
split's event trace begins `flushPage S, writeSibling N S, flushHeader N,
flushSplitEntry N m, flushLastIndex N` and the hand-off to the parent comes
strictly later. -/
theorem c8_split_persist_order (bt : BTree) (pid : Ptr) (p : Page) (key : Key)
    (right : Ptr) (flush : Bool) (inv : Ptr) (f : Nat)
    (hlook : lookupPage bt.heap pid = some p)
    (hdel : p.hdr.is_deleted = false)
    (hsib : p.hdr.sibling_ptr = 0)
    (hfull : ¬ pageCount p < cardinality - 1)
    (hroot : bt.root ≠ pid) :
    ∃ a b, (exec (f + 1) bt (Call.store pid key right flush inv)).2.2
      = [Ev.flushPage (bt.heap.length + 1), Ev.writeSibling pid (bt.heap.length + 1),
         Ev.flushHeader pid, Ev.flushSplitEntry pid (storeSplitPos (pageCount p)),
         Ev.flushLastIndex pid]
        ++ a
        ++ [Ev.parentInsert ((p.records.getD (storeSplitPos (pageCount p)) defaultEntry).key)
              (bt.heap.length + 1)]
        ++ b :=
  storeSplitTrace bt pid p key right flush inv f hlook hdel hsib hfull hroot

/-- Witness: the split of the concrete full leaf under an internal root
emits exactly this trace shape. -/
theorem c8_split_persist_order_witness :
    ∃ a b, (exec (0 + 1) c48tree (Call.store 1 30 777 true 0)).2.2
      = [Ev.flushPage (c48tree.heap.length + 1), Ev.writeSibling 1 (c48tree.heap.length + 1),
         Ev.flushHeader 1, Ev.flushSplitEntry 1 (storeSplitPos (pageCount c48leaf)),
         Ev.flushLastIndex 1]
        ++ a
        ++ [Ev.parentInsert ((c48leaf.records.getD (storeSplitPos (pageCount c48leaf)) defaultEntry).key)
              (c48tree.heap.length + 1)]
        ++ b :=
  c8_split_persist_order c48tree 1 c48leaf 30 777 true 0 0 rfl rfl rfl
    (by decide) (by decide)

/-- C4: a FAIR split is triggered exactly when the node holds
`cardinality - 1 = 28` valid entries (counts move by one per insert and
`store` takes the FAST path below that bound); there the C expression
`(int) ceil(num_entries/2)` computes `28 / 2 = 14`, which coincides with the
exact rational ceiling `⌈28/2⌉ = 14` because the trigger count is even, and
the split key handed to the parent level is the key of the entry at that
index. -/
theorem c4_split_pos_is_ceil (bt : BTree) (pid : Ptr) (p : Page) (key : Key)
    (right : Ptr) (flush : Bool) (inv : Ptr) (f : Nat)
    (hlook : lookupPage bt.heap pid = some p)
    (hdel : p.hdr.is_deleted = false)
    (hsib : p.hdr.sibling_ptr = 0)
    (hcount : pageCount p = cardinality - 1)
    (hroot : bt.root ≠ pid) :
    storeSplitPos (pageCount p) = Nat.ceil ((pageCount p : ℚ) / 2) ∧
    ∃ a b, (exec (f + 1) bt (Call.store pid key right flush inv)).2.2
      = a
        ++ [Ev.parentInsert
              ((p.records.getD (Nat.ceil ((pageCount p : ℚ) / 2)) defaultEntry).key)
              (bt.heap.length + 1)]
        ++ b := by
  have h28 : pageCount p = 28 := hcount
  have hceil : Nat.ceil (((28 : Nat) : ℚ) / 2) = 14 := by
    norm_num
  have hfull : ¬ pageCount p < cardinality - 1 := by
    rw [hcount]
    exact lt_irrefl _
  obtain ⟨a, b, h⟩ :=
    storeSplitTrace bt pid p key right flush inv f hlook hdel hsib hfull hroot
  have hpos : storeSplitPos (pageCount p) = 14 := by
    rw [storeSplitPos_eq_div, h28]
  rw [hpos] at h
  constructor
  · rw [hpos, h28, hceil]
  · rw [h28, hceil]
    exact ⟨[Ev.flushPage (bt.heap.length + 1), Ev.writeSibling pid (bt.heap.length + 1),
            Ev.flushHeader pid, Ev.flushSplitEntry pid 14, Ev.flushLastIndex pid] ++ a,
           b, h⟩

/-- Witness: on the concrete full leaf (28 entries) the split position is
`14 = 28 / 2 = ⌈28/2⌉` and `records[14].key = 15` goes to the parent. -/
theorem c4_split_pos_is_ceil_witness :
    storeSplitPos (pageCount c48leaf) = Nat.ceil ((pageCount c48leaf : ℚ) / 2) ∧
    ∃ a b, (exec (0 + 1) c48tree (Call.store 1 40 777 true 0)).2.2
      = a
        ++ [Ev.parentInsert
              ((c48leaf.records.getD (Nat.ceil ((pageCount c48leaf : ℚ) / 2)) defaultEntry).key)
              (c48tree.heap.length + 1)]
        ++ b :=
  c4_split_pos_is_ceil c48tree 1 c48leaf 40 777 true 0 0 rfl rfl rfl
    (by decide) (by decide)
